import Mathlib

/-!
Verification development for the rlox tree-walk front end
(scanner, recursive-descent expression parser, AST printer, interpreter).

The Rust sources are shallowly embedded:
* source text is a `List Char`; Rust's `&str` byte positions are modelled
  exactly (`byteLen`, `byteSlice` with UTF-8 character sizes), because the
  scanner mixes character counts (`chars().nth`) with byte indices
  (`source[a..b]`, `source.len()`);
* a Rust panic (failed `unwrap`, out-of-bounds or non-boundary slice,
  `usize` underflow) is the `PRes.crash` outcome;
* the scanner's and parser's loops are driven by an explicit fuel counter
  (an embedding artifact); exhausted fuel is the separate `PRes.out`
  outcome, and sufficiency lemmas below show the chosen fuel never runs
  out for the scanner;
* `f64` is modelled by `F`: exact rationals extended with the two
  infinities and NaN.  IEEE-754 rounding and negative zero are not
  modelled; no theorem below depends on them.
-/

/-- Outcome of running embedded Rust code: a value, a panic, or exhausted
fuel (the latter is an artifact of the embedding). -/
inductive PRes (α : Type) where
  | ok (a : α)
  | crash
  | out
deriving DecidableEq, Repr

/-- Exact fraction `num / den` (intended `den > 0`; every constructor
below keeps it positive).  Fractions are not reduced to lowest terms;
value comparisons cross-multiply.  Used as the finite part of the `f64`
model because its arithmetic is plain `Int`/`Nat` arithmetic. -/
structure Q where
  num : Int
  den : Nat
deriving DecidableEq, Repr

namespace Q

/-- Fraction of a natural number. -/
def ofNat (n : Nat) : Q := ⟨n, 1⟩

/-- Fraction negation. -/
def qneg (a : Q) : Q := ⟨-a.num, a.den⟩

/-- Fraction addition. -/
def qadd (a b : Q) : Q := ⟨a.num * b.den + b.num * a.den, a.den * b.den⟩

/-- Fraction multiplication. -/
def qmul (a b : Q) : Q := ⟨a.num * b.num, a.den * b.den⟩

/-- Fraction division (caller guarantees `b` is nonzero); the sign moves
to the numerator so the denominator stays positive. -/
def qdiv (a b : Q) : Q :=
  let n : Int := a.num * b.den
  let d : Int := (a.den : Int) * b.num
  ⟨if d < 0 then -n else n, d.natAbs⟩

/-- Fraction value equality (cross-multiplied). -/
def qbeq (a b : Q) : Bool := a.num * (b.den : Int) == b.num * (a.den : Int)

/-- Fraction strict order (valid for positive denominators). -/
def qlt (a b : Q) : Bool := a.num * (b.den : Int) < b.num * (a.den : Int)

end Q

/-- Model of `f64`: exact fractions plus the IEEE special values used by
the interpreter.  Rounding and signed zero are not modelled. -/
inductive F where
  | fin (q : Q)
  | pinf
  | ninf
  | nan
deriving DecidableEq, Repr

namespace F

/-- `f64` negation. -/
def neg : F → F
  | fin q => fin (Q.qneg q)
  | pinf => ninf
  | ninf => pinf
  | nan => nan

/-- `f64` addition (exact on finite values). -/
def add : F → F → F
  | fin a, fin b => fin (Q.qadd a b)
  | fin _, pinf => pinf
  | fin _, ninf => ninf
  | pinf, fin _ => pinf
  | ninf, fin _ => ninf
  | pinf, pinf => pinf
  | ninf, ninf => ninf
  | pinf, ninf => nan
  | ninf, pinf => nan
  | nan, _ => nan
  | _, nan => nan

/-- `f64` subtraction. -/
def sub (a b : F) : F := add a (neg b)

/-- `f64` multiplication (exact on finite values; `inf * 0` is NaN). -/
def mul : F → F → F
  | fin a, fin b => fin (Q.qmul a b)
  | fin a, pinf => if 0 < a.num then pinf else if a.num < 0 then ninf else nan
  | fin a, ninf => if 0 < a.num then ninf else if a.num < 0 then pinf else nan
  | pinf, fin b => if 0 < b.num then pinf else if b.num < 0 then ninf else nan
  | ninf, fin b => if 0 < b.num then ninf else if b.num < 0 then pinf else nan
  | pinf, pinf => pinf
  | ninf, ninf => pinf
  | pinf, ninf => ninf
  | ninf, pinf => ninf
  | nan, _ => nan
  | _, nan => nan

/-- `f64` division: division by zero yields a signed infinity, `0/0` NaN. -/
def div : F → F → F
  | fin a, fin b =>
      if b.num = 0 then (if 0 < a.num then pinf else if a.num < 0 then ninf else nan)
      else fin (Q.qdiv a b)
  | fin _, pinf => fin (Q.ofNat 0)
  | fin _, ninf => fin (Q.ofNat 0)
  | pinf, fin b => if b.num < 0 then ninf else pinf
  | ninf, fin b => if b.num < 0 then pinf else ninf
  | pinf, pinf => nan
  | pinf, ninf => nan
  | ninf, pinf => nan
  | ninf, ninf => nan
  | nan, _ => nan
  | _, nan => nan

/-- `f64` equality (`==`): NaN compares unequal to everything. -/
def beq : F → F → Bool
  | fin a, fin b => Q.qbeq a b
  | pinf, pinf => true
  | ninf, ninf => true
  | _, _ => false

/-- `f64` strict less-than: false whenever NaN is involved. -/
def flt : F → F → Bool
  | fin a, fin b => Q.qlt a b
  | fin _, pinf => true
  | ninf, fin _ => true
  | ninf, pinf => true
  | _, _ => false

/-- `f64` less-or-equal: false whenever NaN is involved. -/
def fle (a b : F) : Bool := flt a b || beq a b

/-- `f64` strict greater-than. -/
def fgt (a b : F) : Bool := flt b a

/-- `f64` greater-or-equal. -/
def fge (a b : F) : Bool := fle b a

end F

/-- `TokenType` from `scanner.rs`.  The literal payloads: a string
literal's text is a `List Char`, a number literal is an `F`. -/
inductive TokenType where
  | LeftParen | RightParen | LeftBrace | RightBrace
  | Comma | Dot | Minus | Plus | Semicolon | Slash | Star
  | Bang | BangEqual | Equal | EqualEqual
  | Greater | GreaterEqual | Less | LessEqual
  | Identifier
  | StringLiteral (literal : List Char)
  | Number (number : F)
  | And | Class | Else | False | Fun | For | If | Nil | Or
  | Print | Return | Super | This | True | Var | While
  | Eof
deriving DecidableEq, Repr

/-- `Token` from `scanner.rs`: kind, lexeme (a slice of the source) and
1-based line number. -/
structure Token where
  token_type : TokenType
  lexeme : List Char
  line : Nat
deriving DecidableEq, Repr

/-- `Expression` from `ast.rs`. -/
inductive Expression where
  | Binary (l_expr : Expression) (operator : Token) (r_expr : Expression)
  | Grouping (expr : Expression)
  | Literal (token : Token)
  | Unary (operator : Token) (r_expr : Expression)
deriving DecidableEq, Repr

/-- Runtime values, `Types` from `interpreter.rs`. -/
inductive Types where
  | Number (n : F)
  | ReturnString (s : List Char)
  | Boolean (b : Bool)
  | Nil
deriving DecidableEq, Repr

namespace Scan

/-- Number of UTF-8 bytes a character occupies in a Rust `&str`. -/
def csize (c : Char) : Nat := c.utf8Size

/-- Rust `str::len`: the byte length of the source. -/
def byteLen (s : List Char) : Nat := (s.map csize).sum

/-- Drop `n` leading bytes from a character list; `none` when `n` is not
on a character boundary or exceeds the byte length (a Rust slice panic). -/
def byteDrop : List Char → Nat → Option (List Char)
  | s, 0 => some s
  | [], _ + 1 => none
  | c :: cs, n + 1 =>
      if csize c ≤ n + 1 then byteDrop cs (n + 1 - csize c) else none

/-- Take `n` leading bytes from a character list; `none` when `n` is not
on a character boundary or exceeds the byte length. -/
def byteTake : List Char → Nat → Option (List Char)
  | _, 0 => some []
  | [], _ + 1 => none
  | c :: cs, n + 1 =>
      if csize c ≤ n + 1 then
        (byteTake cs (n + 1 - csize c)).map (fun l => c :: l)
      else none

/-- Rust `&source[a..b]`: `none` models the slice panic (reversed range,
out of bounds, or a byte index inside a multi-byte character). -/
def byteSlice (s : List Char) (a b : Nat) : Option (List Char) :=
  if a ≤ b then (byteDrop s a).bind (fun t => byteTake t (b - a)) else none

/-- Scanner state, the fields of `Scanner` in `scanner.rs`.  `current`
is the single counter the Rust code uses both as a character index (in
`chars().nth`) and as a byte index (in slices and `is_at_end`). -/
structure St where
  source : List Char
  tokens : List Token
  start : Nat
  current : Nat
  line : Nat
  has_error : Bool
deriving DecidableEq, Repr

/-- `Scanner::new`. -/
def init (s : List Char) : St :=
  { source := s, tokens := [], start := 0, current := 0, line := 1, has_error := false }

/-- `Scanner::is_at_end`: compares the mixed counter against the byte length. -/
def is_at_end (st : St) : Bool := byteLen st.source ≤ st.current

/-- `Scanner::advance`: `chars().nth(current).unwrap()` then increment;
the failed unwrap is a crash. -/
def advance (st : St) : PRes (Char × St) :=
  match st.source[st.current]? with
  | none => .crash
  | some c => .ok (c, { st with current := st.current + 1 })

/-- `Scanner::matching`: conditionally consume an expected character. -/
def matching (st : St) (expected : Char) : Bool × St :=
  if is_at_end st then (false, st)
  else if st.source[st.current]? = some expected then
    (true, { st with current := st.current + 1 })
  else (false, st)

/-- `Scanner::peek`: `'\0'` at end of input, otherwise
`chars().nth(current).unwrap()` (crash on failed unwrap). -/
def peek (st : St) : PRes Char :=
  if is_at_end st then .ok '\x00'
  else
    match st.source[st.current]? with
    | none => .crash
    | some c => .ok c

/-- `Scanner::peek_next`. -/
def peek_next (st : St) : PRes Char :=
  if byteLen st.source ≤ st.current + 1 then .ok '\x00'
  else
    match st.source[st.current + 1]? with
    | none => .crash
    | some c => .ok c

/-- `Scanner::add_token`: lexeme is the byte slice `source[start..current]`. -/
def add_token (st : St) (tt : TokenType) : PRes St :=
  match byteSlice st.source st.start st.current with
  | none => .crash
  | some text =>
      .ok { st with tokens := st.tokens ++ [{ token_type := tt, lexeme := text, line := st.line }] }

/-- `Scanner::is_digit`. -/
def is_digit (c : Char) : Bool := '0' ≤ c && c ≤ '9'

/-- `Scanner::is_alpha`. -/
def is_alpha (c : Char) : Bool :=
  ('a' ≤ c && c ≤ 'z') || ('A' ≤ c && c ≤ 'Z') || c = '_'

/-- `Scanner::is_alpha_numeric`. -/
def is_alpha_numeric (c : Char) : Bool := is_alpha c || is_digit c

/-- The keyword table from `Scanner::identifier`. -/
def keywords : List (List Char × TokenType) :=
  [ (String.toList "and", .And), (String.toList "class", .Class),
    (String.toList "else", .Else), (String.toList "false", .False),
    (String.toList "for", .For), (String.toList "fun", .Fun),
    (String.toList "if", .If), (String.toList "nil", .Nil),
    (String.toList "or", .Or), (String.toList "print", .Print),
    (String.toList "return", .Return), (String.toList "super", .Super),
    (String.toList "this", .This), (String.toList "true", .True),
    (String.toList "var", .Var), (String.toList "while", .While) ]

/-- Keyword lookup: `keywords.get(text)`. -/
def keywordOf (text : List Char) : Option TokenType :=
  (keywords.find? (fun p => p.1 == text)).map (fun p => p.2)

/-- Loop of `Scanner::identifier`: consume alphanumeric characters. -/
def identLoop : Nat → St → PRes St
  | 0, _ => .out
  | fuel + 1, st =>
      match peek st with
      | .crash => .crash
      | .out => .out
      | .ok c =>
          if is_alpha_numeric c then
            match advance st with
            | .crash => .crash
            | .out => .out
            | .ok (_, st') => identLoop fuel st'
          else .ok st

/-- `Scanner::identifier`: consume the run, look the text up in the
keyword table, add the keyword token or a plain identifier. -/
def identifier (fuel : Nat) (st : St) : PRes St :=
  match identLoop fuel st with
  | .crash => .crash
  | .out => .out
  | .ok st1 =>
      match byteSlice st1.source st1.start st1.current with
      | none => .crash
      | some text =>
          match keywordOf text with
          | some tt => add_token st1 tt
          | none => add_token st1 .Identifier

/-- Digit-run loop used twice by `Scanner::number`. -/
def digitLoop : Nat → St → PRes St
  | 0, _ => .out
  | fuel + 1, st =>
      match peek st with
      | .crash => .crash
      | .out => .out
      | .ok c =>
          if is_digit c then
            match advance st with
            | .crash => .crash
            | .out => .out
            | .ok (_, st') => digitLoop fuel st'
          else .ok st

/-- Value of a digit character. -/
def digitVal (c : Char) : Nat := c.toNat - '0'.toNat

/-- Parse a run of digits to a natural number; `none` if empty or a
non-digit appears. -/
def digitsToNat (cs : List Char) : Option Nat :=
  if cs = [] then none
  else if cs.all is_digit then
    some (cs.foldl (fun acc c => 10 * acc + digitVal c) 0)
  else none

/-- Model of `str::parse::<f64>` restricted to the shapes the scanner
produces, `D+` and `D+.D+` (exact, no rounding); `none` models the
`unwrap` panic on any other text. -/
def parseNumberLit (cs : List Char) : Option F :=
  match cs.splitOn '.' with
  | [whole] => (digitsToNat whole).map (fun n => F.fin (Q.ofNat n))
  | [whole, frac] =>
      match digitsToNat whole, digitsToNat frac with
      | some w, some f =>
          some (F.fin ⟨(w : Int) * (10 : Int) ^ frac.length + (f : Int), 10 ^ frac.length⟩)
      | _, _ => none
  | _ => none

/-- `Scanner::number`: digit run, optional fraction (the dot is consumed
only when followed by a digit), then parse and add the token. -/
def number (fuel : Nat) (st : St) : PRes St :=
  match digitLoop fuel st with
  | .crash => .crash
  | .out => .out
  | .ok st1 =>
      match peek st1 with
      | .crash => .crash
      | .out => .out
      | .ok c =>
          let finish : St → PRes St := fun st' =>
            match byteSlice st'.source st'.start st'.current with
            | none => .crash
            | some text =>
                match parseNumberLit text with
                | none => .crash
                | some q => add_token st' (.Number q)
          if c = '.' then
            match peek_next st1 with
            | .crash => .crash
            | .out => .out
            | .ok c2 =>
                if is_digit c2 then
                  match advance st1 with
                  | .crash => .crash
                  | .out => .out
                  | .ok (_, st2) =>
                      match digitLoop fuel st2 with
                      | .crash => .crash
                      | .out => .out
                      | .ok st3 => finish st3
                else finish st1
          else finish st1

/-- Loop of `Scanner::string`: consume until the closing quote or end of
input, counting newlines. -/
def stringLoop : Nat → St → PRes St
  | 0, _ => .out
  | fuel + 1, st =>
      match peek st with
      | .crash => .crash
      | .out => .out
      | .ok c =>
          if c ≠ '"' && !(is_at_end st) then
            let st1 := if c = '\n' then { st with line := st.line + 1 } else st
            match advance st1 with
            | .crash => .crash
            | .out => .out
            | .ok (_, st2) => stringLoop fuel st2
          else .ok st

/-- `Scanner::string`: body loop, unterminated-string error at end of
input, otherwise consume the closing quote, slice the value without the
quotes, and add the token. -/
def stringFn (fuel : Nat) (st : St) : PRes St :=
  match stringLoop fuel st with
  | .crash => .crash
  | .out => .out
  | .ok st1 =>
      if is_at_end st1 then .ok { st1 with has_error := true }
      else
        match advance st1 with
        | .crash => .crash
        | .out => .out
        | .ok (_, st2) =>
            match byteSlice st2.source (st2.start + 1) (st2.current - 1) with
            | none => .crash
            | some value => add_token st2 (.StringLiteral value)

/-- Line-comment loop inside `Scanner::scan_token`. -/
def commentLoop : Nat → St → PRes St
  | 0, _ => .out
  | fuel + 1, st =>
      match peek st with
      | .crash => .crash
      | .out => .out
      | .ok c =>
          if c ≠ '\n' && !(is_at_end st) then
            match advance st with
            | .crash => .crash
            | .out => .out
            | .ok (_, st') => commentLoop fuel st'
          else .ok st

/-- `Scanner::scan_token`: dispatch on the consumed character.  The inner
loops get fresh fuel `byteLen source + 1`, always sufficient. -/
def scan_token (st : St) : PRes St :=
  match advance st with
  | .crash => .crash
  | .out => .out
  | .ok (c, st1) =>
      let fuel := byteLen st1.source + 1
      match c with
      | '(' => add_token st1 .LeftParen
      | ')' => add_token st1 .RightParen
      | '{' => add_token st1 .LeftBrace
      | '}' => add_token st1 .RightBrace
      | ',' => add_token st1 .Comma
      | '.' => add_token st1 .Dot
      | '-' => add_token st1 .Minus
      | '+' => add_token st1 .Plus
      | ';' => add_token st1 .Semicolon
      | '*' => add_token st1 .Star
      | '!' =>
          let (m, st2) := matching st1 '='
          if m then add_token st2 .BangEqual else add_token st2 .Bang
      | '=' =>
          let (m, st2) := matching st1 '='
          if m then add_token st2 .EqualEqual else add_token st2 .Equal
      | '<' =>
          let (m, st2) := matching st1 '='
          if m then add_token st2 .LessEqual else add_token st2 .Less
      | '>' =>
          let (m, st2) := matching st1 '='
          if m then add_token st2 .GreaterEqual else add_token st2 .Greater
      | '/' =>
          let (m, st2) := matching st1 '/'
          if m then commentLoop fuel st2 else add_token st2 .Slash
      | ' ' => .ok st1
      | '\r' => .ok st1
      | '\t' => .ok st1
      | '\n' => .ok { st1 with line := st1.line + 1 }
      | '"' => stringFn fuel st1
      | c =>
          if is_digit c then number fuel st1
          else if is_alpha c then identifier fuel st1
          else .ok { st1 with has_error := true }

/-- Main loop of `Scanner::scan_tokens`: while not at end and no error,
reset `start` and scan one token. -/
def scanLoop : Nat → St → PRes St
  | 0, _ => .out
  | fuel + 1, st =>
      if !(is_at_end st) && !st.has_error then
        match scan_token { st with start := st.current } with
        | .crash => .crash
        | .out => .out
        | .ok st' => scanLoop fuel st'
      else .ok st

/-- `Scanner::scan_tokens`: run the loop, fail as a whole on a sticky
error, otherwise append the synthetic Eof token. -/
def scan_tokens (s : List Char) : PRes (Except String (List Token)) :=
  match scanLoop (byteLen s + 1) (init s) with
  | .crash => .crash
  | .out => .out
  | .ok st =>
      if st.has_error then .ok (.error "error while scanning")
      else .ok (.ok (st.tokens ++ [{ token_type := .Eof, lexeme := [], line := st.line }]))

end Scan

/-- Escaping of one character in Rust's `Debug` formatting of a string
slice (the escapes relevant to scanned text; exotic control characters
are not modelled, and no theorem depends on them). -/
def escDebugChar (c : Char) : List Char :=
  if c = '"' then ['\\', '"']
  else if c = '\\' then ['\\', '\\']
  else if c = '\n' then ['\\', 'n']
  else if c = '\r' then ['\\', 'r']
  else if c = '\t' then ['\\', 't']
  else [c]

/-- Rust `\x7b:?\x7d` of a `&str`: quoted and escaped. -/
def strDebug (s : List Char) : String :=
  "\"" ++ String.mk (s.map escDebugChar).flatten ++ "\""

/-- Decimal rendering of a fraction, in the style of Rust's `Debug` for
`f64` on exactly-representable values: integral values get a trailing
`.0`, terminating decimals print their digits.  (Rust's
shortest-round-trip formatting for other values is approximated; no
theorem depends on those cases.) -/
def ratDebug (q : Q) : String :=
  match (List.range 65).find? (fun k => q.num * (10 : Int) ^ k % (q.den : Int) == 0) with
  | some 0 => toString (q.num / (q.den : Int)) ++ ".0"
  | some k =>
      let n := q.num * (10 : Int) ^ k / (q.den : Int)
      let sign := if n < 0 then "-" else ""
      let ds := (toString n.natAbs).toList
      let ds := if ds.length < k + 1 then List.replicate (k + 1 - ds.length) '0' ++ ds else ds
      sign ++ String.mk (ds.take (ds.length - k)) ++ "." ++ String.mk (ds.drop (ds.length - k))
  | none => toString q.num ++ "/" ++ toString q.den

/-- Rust `\x7b:?\x7d` of the `f64` payload. -/
def floatDebug : F → String
  | .fin q => ratDebug q
  | .pinf => "inf"
  | .ninf => "-inf"
  | .nan => "NaN"

/-- Rust derived `Debug` of `TokenType`. -/
def tokenTypeDebug : TokenType → String
  | .LeftParen => "LeftParen"
  | .RightParen => "RightParen"
  | .LeftBrace => "LeftBrace"
  | .RightBrace => "RightBrace"
  | .Comma => "Comma"
  | .Dot => "Dot"
  | .Minus => "Minus"
  | .Plus => "Plus"
  | .Semicolon => "Semicolon"
  | .Slash => "Slash"
  | .Star => "Star"
  | .Bang => "Bang"
  | .BangEqual => "BangEqual"
  | .Equal => "Equal"
  | .EqualEqual => "EqualEqual"
  | .Greater => "Greater"
  | .GreaterEqual => "GreaterEqual"
  | .Less => "Less"
  | .LessEqual => "LessEqual"
  | .Identifier => "Identifier"
  | .StringLiteral l => "StringLiteral \x7b literal: " ++ strDebug l ++ " \x7d"
  | .Number n => "Number \x7b number: " ++ floatDebug n ++ " \x7d"
  | .And => "And"
  | .Class => "Class"
  | .Else => "Else"
  | .False => "False"
  | .Fun => "Fun"
  | .For => "For"
  | .If => "If"
  | .Nil => "Nil"
  | .Or => "Or"
  | .Print => "Print"
  | .Return => "Return"
  | .Super => "Super"
  | .This => "This"
  | .True => "True"
  | .Var => "Var"
  | .While => "While"
  | .Eof => "Eof"

/-- Rust derived `Debug` of `Token`. -/
def tokenDebug (t : Token) : String :=
  "Token \x7b token_type: " ++ tokenTypeDebug t.token_type ++
    ", lexeme: " ++ strDebug t.lexeme ++ ", line: " ++ toString t.line ++ " \x7d"

/-- Parse errors: `ParserError \x7bmessage, line, lexeme\x7d` from
`parser.rs`, or a bare `anyhow` message. -/
inductive ParseErr where
  | located (message : String) (lexeme : List Char) (line : Nat)
  | bare (message : String)
deriving DecidableEq, Repr

namespace Parse

/-- `Parser::peek`: `tokens.get(current)`. -/
def peekT (ts : List Token) (c : Nat) : Option Token := ts[c]?

/-- `Parser::is_at_end`: the current token is the Eof sentinel. -/
def at_endT (ts : List Token) (c : Nat) : Bool :=
  match peekT ts c with
  | some t => t.token_type == TokenType.Eof
  | none => false

/-- `Parser::previous`: `tokens.get(current - 1)`; at `current = 0` the
`usize` subtraction underflows, modelled as a crash (`none`). -/
def previousT (ts : List Token) (c : Nat) : Option (Option Token) :=
  if c = 0 then none else some ts[c - 1]?

/-- `Parser::advance`: increment the cursor unless at the Eof sentinel,
then return `previous()`.  The outer `none` is the underflow crash; the
result pairs `previous()`'s value with the new cursor. -/
def advanceT (ts : List Token) (c : Nat) : Option (Option Token × Nat) :=
  let c1 := if at_endT ts c then c else c + 1
  match previousT ts c1 with
  | none => none
  | some r => some (r, c1)

/-- Result of a parsing function: expression or parse error, with the
final cursor. -/
abbrev PR := PRes (Except ParseErr Expression × Nat)

/-- The mutually recursive parsing methods of `Parser`, combined into
one fuel-indexed dispatcher so that the recursion is structural in the
fuel (each Rust method call consumes one unit of fuel).  `Frame` names
the method being executed; the loop frames carry the accumulated
left-hand expression of the corresponding Rust `while let` fold.  The
per-method wrappers with the source names follow below. -/
inductive Frame where
  | expressionF
  | equalityF
  | eqLoopF (e : Expression)
  | comparisonF
  | cmpLoopF (e : Expression)
  | termF
  | termLoopF (e : Expression)
  | factorF
  | facLoopF (e : Expression)
  | unaryF
  | primaryF
deriving DecidableEq, Repr

/-- One step of the recursive-descent parser; see `Frame`.  Each case is
the body of the corresponding method in `parser.rs`. -/
def parseGo : Nat → Frame → List Token → Nat → PR
  | 0, _, _, _ => .out
  | fuel + 1, fr, ts, c =>
      match fr with
      | .expressionF => parseGo fuel .equalityF ts c
      | .equalityF =>
          (match parseGo fuel .comparisonF ts c with
           | .ok (.ok e, c1) => parseGo fuel (.eqLoopF e) ts c1
           | r => r)
      | .eqLoopF e =>
          (match peekT ts c with
           | some t =>
               if t.token_type == TokenType.BangEqual || t.token_type == TokenType.EqualEqual then
                 match advanceT ts c with
                 | none => .crash
                 | some (none, c1) => .ok (.ok e, c1)
                 | some (some opTok, c1) =>
                     match parseGo fuel .comparisonF ts c1 with
                     | .ok (.ok right, c2) => parseGo fuel (.eqLoopF (.Binary e opTok right)) ts c2
                     | r => r
               else .ok (.ok e, c)
           | none => .ok (.ok e, c))
      | .comparisonF =>
          (match parseGo fuel .termF ts c with
           | .ok (.ok e, c1) => parseGo fuel (.cmpLoopF e) ts c1
           | r => r)
      | .cmpLoopF e =>
          (match peekT ts c with
           | some t =>
               if t.token_type == TokenType.GreaterEqual || t.token_type == TokenType.Greater
                   || t.token_type == TokenType.LessEqual || t.token_type == TokenType.Less then
                 match advanceT ts c with
                 | none => .crash
                 | some (none, c1) => .ok (.ok e, c1)
                 | some (some opTok, c1) =>
                     match parseGo fuel .termF ts c1 with
                     | .ok (.ok right, c2) => parseGo fuel (.cmpLoopF (.Binary e opTok right)) ts c2
                     | r => r
               else .ok (.ok e, c)
           | none => .ok (.ok e, c))
      | .termF =>
          (match parseGo fuel .factorF ts c with
           | .ok (.ok e, c1) => parseGo fuel (.termLoopF e) ts c1
           | r => r)
      | .termLoopF e =>
          (match peekT ts c with
           | some t =>
               if t.token_type == TokenType.Plus || t.token_type == TokenType.Minus then
                 match advanceT ts c with
                 | none => .crash
                 | some (none, c1) => .ok (.ok e, c1)
                 | some (some opTok, c1) =>
                     match parseGo fuel .factorF ts c1 with
                     | .ok (.ok right, c2) => parseGo fuel (.termLoopF (.Binary e opTok right)) ts c2
                     | r => r
               else .ok (.ok e, c)
           | none => .ok (.ok e, c))
      | .factorF =>
          (match parseGo fuel .unaryF ts c with
           | .ok (.ok e, c1) => parseGo fuel (.facLoopF e) ts c1
           | r => r)
      | .facLoopF e =>
          (match peekT ts c with
           | some t =>
               if t.token_type == TokenType.Slash || t.token_type == TokenType.Star then
                 match advanceT ts c with
                 | none => .crash
                 | some (none, c1) => .ok (.ok e, c1)
                 | some (some opTok, c1) =>
                     match parseGo fuel .unaryF ts c1 with
                     | .ok (.ok right, c2) => parseGo fuel (.facLoopF (.Binary e opTok right)) ts c2
                     | r => r
               else .ok (.ok e, c)
           | none => .ok (.ok e, c))
      | .unaryF =>
          (match peekT ts c with
           | some t =>
               if t.token_type == TokenType.Bang || t.token_type == TokenType.Minus then
                 match advanceT ts c with
                 | none => .crash
                 | some (none, c1) => parseGo fuel .primaryF ts c1
                 | some (some opTok, c1) =>
                     match parseGo fuel .unaryF ts c1 with
                     | .ok (.ok right, c2) => .ok (.ok (.Unary opTok right), c2)
                     | r => r
               else parseGo fuel .primaryF ts c
           | none => parseGo fuel .primaryF ts c)
      | .primaryF =>
          (match peekT ts c with
           | some t =>
               match t.token_type with
               | .False | .True | .Nil | .Number _ | .StringLiteral _ =>
                   (match advanceT ts c with
                    | none => .crash
                    | some (_, c1) => .ok (.ok (.Literal t), c1))
               | .LeftParen =>
                   (match advanceT ts c with
                    | none => .crash
                    | some (_, c1) =>
                        match parseGo fuel .expressionF ts c1 with
                        | .ok (.ok e, c2) =>
                            (match peekT ts c2 with
                             | some t2 =>
                                 if t2.token_type == TokenType.RightParen then
                                   match advanceT ts c2 with
                                   | none => .crash
                                   | some (_, c3) => .ok (.ok (.Grouping e), c3)
                                 else
                                   .ok (.error (.located "expect ')' after expression" t2.lexeme t2.line), c2)
                             | none => .ok (.error (.bare "expect ')' after expression"), c2))
                        | r => r)
               | _ =>
                   .ok (.error (.located ("unrecognized primary: " ++ tokenDebug t) t.lexeme t.line), c)
           | none => .ok (.error (.bare "expected expression"), c))

/-- `Parser::expression`. -/
def expression (fuel : Nat) (ts : List Token) (c : Nat) : PR := parseGo fuel .expressionF ts c

/-- `Parser::equality`. -/
def equality (fuel : Nat) (ts : List Token) (c : Nat) : PR := parseGo fuel .equalityF ts c

/-- `Parser::comparison`. -/
def comparison (fuel : Nat) (ts : List Token) (c : Nat) : PR := parseGo fuel .comparisonF ts c

/-- `Parser::term`. -/
def term (fuel : Nat) (ts : List Token) (c : Nat) : PR := parseGo fuel .termF ts c

/-- `Parser::factor`. -/
def factor (fuel : Nat) (ts : List Token) (c : Nat) : PR := parseGo fuel .factorF ts c

/-- `Parser::unary`. -/
def unary (fuel : Nat) (ts : List Token) (c : Nat) : PR := parseGo fuel .unaryF ts c

/-- `Parser::primary`. -/
def primary (fuel : Nat) (ts : List Token) (c : Nat) : PR := parseGo fuel .primaryF ts c

/-- Fuel for `parse`: ample for any expression over the token list (each
grammar level consumes one unit, parenthesis nesting is bounded by the
token count). -/
def parseFuel (ts : List Token) : Nat := 16 * (ts.length + 1)

/-- `Parser::parse`: `expression` from cursor 0. -/
def parse (ts : List Token) : PR := expression (parseFuel ts) ts 0

end Parse

/-- `Interpreter::visit_expression` from `interpreter.rs` (the `Visitor`
implementation): evaluate an expression tree to a runtime value, with the
source's match arms in source order. -/
def visit_expression : Expression → Except String Types
  | .Literal token =>
      match token.token_type with
      | .Number number => .ok (.Number number)
      | .StringLiteral literal => .ok (.ReturnString literal)
      | .True => .ok (.Boolean true)
      | .False => .ok (.Boolean false)
      | .Nil => .ok .Nil
      | _ => .error "Unrecognized literal"
  | .Grouping expr => visit_expression expr
  | .Unary operator r_expr =>
      match visit_expression r_expr with
      | .error e => .error e
      | .ok right =>
          match right, operator.token_type with
          | .Number n, .Minus => .ok (.Number (F.neg n))
          | .Boolean false, .Bang => .ok (.Boolean true)
          | .Nil, .Bang => .ok (.Boolean true)
          | _, .Bang => .ok (.Boolean false)
          | _, _ => .error "Unrecognized unary"
  | .Binary l_expr operator r_expr =>
      match visit_expression l_expr with
      | .error e => .error e
      | .ok left =>
          match visit_expression r_expr with
          | .error e => .error e
          | .ok right =>
              match left, right, operator.token_type with
              | .Number n_first, .Number n_second, t =>
                  (match t with
                   | .Plus => .ok (.Number (F.add n_first n_second))
                   | .Minus => .ok (.Number (F.sub n_first n_second))
                   | .Star => .ok (.Number (F.mul n_first n_second))
                   | .Slash => .ok (.Number (F.div n_first n_second))
                   | .Greater => .ok (.Boolean (F.fgt n_first n_second))
                   | .GreaterEqual => .ok (.Boolean (F.fge n_first n_second))
                   | .Less => .ok (.Boolean (F.flt n_first n_second))
                   | .LessEqual => .ok (.Boolean (F.fle n_first n_second))
                   | .EqualEqual => .ok (.Boolean (F.beq n_first n_second))
                   | .BangEqual => .ok (.Boolean (!(F.beq n_first n_second)))
                   | _ => .error "Unrecognized binary operation to two numbers")
              | .ReturnString s_first, .ReturnString s_second, .Plus =>
                  .ok (.ReturnString (s_first ++ s_second))
              | .Nil, .Nil, .Equal => .ok (.Boolean true)
              | .Nil, .Nil, .BangEqual => .ok (.Boolean false)
              | .Boolean b_first, .Boolean b_second, .EqualEqual =>
                  .ok (.Boolean (b_first == b_second))
              | .Boolean b_first, .Boolean b_second, .BangEqual =>
                  .ok (.Boolean (b_first != b_second))
              | _, _, _ => .error "Unrecognized binary"

/-- `Display for Types` from `interpreter.rs`.  Numbers use Rust's `f64`
`Display` (integral values print without a fractional part); the same
approximation as `ratDebug` applies to other rationals. -/
def displayTypes : Types → String
  | .Number (.fin q) =>
      if q.num % (q.den : Int) == 0 then toString (q.num / (q.den : Int)) else ratDebug q
  | .Number .pinf => "inf"
  | .Number .ninf => "-inf"
  | .Number .nan => "NaN"
  | .Boolean true => "true"
  | .Boolean false => "false"
  | .Nil => "nil"
  | .ReturnString s => String.mk s

/-- `Interpreter::interpret`: evaluate, then print the value's display
form on success (the printed line is returned), propagate the error. -/
def interpret (e : Expression) : Except String String :=
  match visit_expression e with
  | .error err => .error err
  | .ok t => .ok (displayTypes t)

/-- `AstPrinter::visit_expresssion` from `ast.rs` (sic, the trait
method's spelling): fully parenthesized debug rendering. -/
def visit_expresssion : Expression → String
  | .Binary l_expr operator r_expr =>
      "(Binary " ++ tokenDebug operator ++ " " ++ visit_expresssion l_expr ++ " " ++
        visit_expresssion r_expr ++ ")"
  | .Grouping expr => "(Grouping " ++ visit_expresssion expr ++ ")"
  | .Literal token => "(Literal " ++ tokenDebug token ++ ")"
  | .Unary operator r_expr =>
      "(Unary " ++ tokenDebug operator ++ " " ++ visit_expresssion r_expr ++ ")"

/-- `AstPrinter::print`. -/
def astPrint (e : Expression) : String := visit_expresssion e

/-- Rendering of `ParserError`'s `Display` implementation
(`writeln!` appends a newline) and of bare `anyhow` messages. -/
def renderParseErr : ParseErr → String
  | .located message lexeme line =>
      "[line " ++ toString line ++ "] Error " ++ String.mk lexeme ++ ": " ++ message ++ "\n"
  | .bare message => message

/-- `run` from `main.rs`: scan, parse, then print the AST printer's
rendering of the parsed expression (the printed line is returned as the
`ok` value; an error of either stage is returned as the rendered error
message). -/
def run (source : List Char) : PRes (Except String String) :=
  match Scan.scan_tokens source with
  | .crash => .crash
  | .out => .out
  | .ok (.error e) => .ok (.error e)
  | .ok (.ok tokens) =>
      match Parse.parse tokens with
      | .crash => .crash
      | .out => .out
      | .ok (.error pe, _) => .ok (.error (renderParseErr pe))
      | .ok (.ok expr, _) => .ok (.ok (astPrint expr))

/-- Composition of the three pipeline stages scan → parse → evaluate,
used by the claims about evaluating source text.  (Note `run` itself
prints the AST instead of evaluating.) -/
def evalSource (source : List Char) : PRes (Except String Types) :=
  match Scan.scan_tokens source with
  | .crash => .crash
  | .out => .out
  | .ok (.error e) => .ok (.error e)
  | .ok (.ok tokens) =>
      match Parse.parse tokens with
      | .crash => .crash
      | .out => .out
      | .ok (.error pe, _) => .ok (.error (renderParseErr pe))
      | .ok (.ok expr, _) => .ok (visit_expression expr)

namespace Scan

/-- Every character of the list is a single UTF-8 byte (then the
scanner's character counts and byte indices coincide). -/
def OneByte (s : List Char) : Prop := ∀ c ∈ s, csize c = 1

instance (s : List Char) : Decidable (OneByte s) := by
  unfold OneByte; infer_instance

/-- A token's lexeme is a byte slice of the source, and a string
literal's lexeme spans from its opening to its closing quote with the
stored value being the slice between the quotes. -/
def TokSpan (src : List Char) (t : Token) : Prop :=
  ∃ a b, byteSlice src a b = some t.lexeme ∧
    (∀ v, t.token_type = .StringLiteral v →
       src[a]? = some '"' ∧ src[b - 1]? = some '"' ∧ a + 2 ≤ b ∧
         byteSlice src (a + 1) (b - 1) = some v)

/-- What a scanner loop preserves: everything except `current` (which
only grows, and lands within the character count whenever it moves) and
`line`. -/
def LoopPres (st st' : St) : Prop :=
  st'.source = st.source ∧ st'.start = st.start ∧ st'.tokens = st.tokens ∧
    st'.has_error = st.has_error ∧ st.current ≤ st'.current ∧
    (st'.current = st.current ∨ st'.current ≤ st.source.length)

/-- What one whole scanning step (`scan_token`, and transitively the
token-adding helpers) guarantees: source and start preserved, the cursor
within the character count, and only non-Eof tokens with in-bounds
lexeme slices appended. -/
def StepPres (st st' : St) : Prop :=
  st'.source = st.source ∧ st'.start = st.start ∧ st.current ≤ st'.current ∧
    (st'.current = st.current ∨ st'.current ≤ st.source.length) ∧
    ∃ ext, st'.tokens = st.tokens ++ ext ∧
      ∀ t ∈ ext, t.token_type ≠ .Eof ∧ TokSpan st.source t

end Scan

namespace Parse

/-- The token sequence ends with the synthetic end-of-stream sentinel
(what `scan_tokens` always produces on success). -/
def EofTerminated (ts : List Token) : Prop :=
  ∃ t, ts.getLast? = some t ∧ t.token_type = TokenType.Eof

end Parse

/-! ### Value/operator shapes listed by the specification -/

/-- The (type, type, operator) shapes the specification lists as
evaluating successfully.  Modelled from the spec's words: Number×Number
with an arithmetic/comparison/equality operator, Text×Text with `+`,
Nil×Nil with equality (`==`/`!=`), Boolean×Boolean with equality. -/
def specListedShape (v1 v2 : Types) (tt : TokenType) : Bool :=
  match v1, v2, tt with
  | .Number _, .Number _, .Plus => true
  | .Number _, .Number _, .Minus => true
  | .Number _, .Number _, .Star => true
  | .Number _, .Number _, .Slash => true
  | .Number _, .Number _, .Greater => true
  | .Number _, .Number _, .GreaterEqual => true
  | .Number _, .Number _, .Less => true
  | .Number _, .Number _, .LessEqual => true
  | .Number _, .Number _, .EqualEqual => true
  | .Number _, .Number _, .BangEqual => true
  | .ReturnString _, .ReturnString _, .Plus => true
  | .Nil, .Nil, .EqualEqual => true
  | .Nil, .Nil, .BangEqual => true
  | .Boolean _, .Boolean _, .EqualEqual => true
  | .Boolean _, .Boolean _, .BangEqual => true
  | _, _, _ => false

/-- The shapes that actually evaluate successfully in the code: the
listed ones plus Nil×Nil with the single-equals token `Equal`, which the
interpreter's nil-equality arm pattern-matches instead of `EqualEqual`. -/
def specListedShapeAmended (v1 v2 : Types) (tt : TokenType) : Bool :=
  specListedShape v1 v2 tt ||
    (match v1, v2, tt with
     | .Nil, .Nil, .Equal => true
     | _, _, _ => false)

/-! ### Claim theorems -/

/-- C1 (code bug): for two Nil operands the parser's `==` token is
`EqualEqual`, but the interpreter's nil-equality arm matches the
single-equals `Equal` token, so `nil == nil` evaluates to the runtime
error `Unrecognized binary` instead of `Boolean true`; the `!=` half
behaves as the claim states (`Boolean false`).  This theorem evaluates
the full pipeline at both failing and agreeing inputs. -/
theorem c1_nil_equality_eval :
    evalSource (String.toList "nil == nil") = PRes.ok (Except.error "Unrecognized binary") ∧
    evalSource (String.toList "nil != nil") = PRes.ok (Except.ok (Types.Boolean false)) :=
  ⟨rfl, rfl⟩

/-- C4 counterexample: the claim says `(2 + 3) * 4` yields `Number 56`;
scanning, parsing and evaluating it yields `Number 20`. -/
theorem c4_counterexample :
    evalSource (String.toList "(2 + 3) * 4") = PRes.ok (Except.ok (Types.Number (F.fin ⟨20, 1⟩))) ∧
    (Types.Number (F.fin ⟨20, 1⟩) ≠ Types.Number (F.fin ⟨56, 1⟩) ∧
      F.beq (F.fin ⟨20, 1⟩) (F.fin ⟨56, 1⟩) = false) :=
  ⟨rfl, by decide, by decide⟩

/-- C4 (amended): precedence and left-associativity of the pipeline —
`2 + 3 * 4` evaluates to `Number 14` (not 20), `(2 + 3) * 4` to
`Number 20`, and `10 - 3 - 2` to `Number 5`. -/
theorem c4_precedence_eval :
    evalSource (String.toList "2 + 3 * 4") = PRes.ok (Except.ok (Types.Number (F.fin ⟨14, 1⟩))) ∧
    evalSource (String.toList "(2 + 3) * 4") = PRes.ok (Except.ok (Types.Number (F.fin ⟨20, 1⟩))) ∧
    evalSource (String.toList "10 - 3 - 2") = PRes.ok (Except.ok (Types.Number (F.fin ⟨5, 1⟩))) :=
  ⟨rfl, rfl, rfl⟩

/-- C10 (code bug): scanning the three-character source `"é"` (a string
literal containing one two-byte character) panics in Rust — the scanner
counts `current` in characters but slices the source by bytes, so the
value slice `source[1..2]` ends inside the multi-byte character.  In the
embedding the scan evaluates to the crash outcome rather than a token
sequence or scan error. -/
theorem c10_scan_crash_on_multibyte :
    Scan.scan_tokens (String.toList "\"é\"") = PRes.crash := rfl

/-- C3 counterexample: a Binary expression over two Nil operands whose
operator token is the single-equals `Equal` is outside the claim's list
of successful shapes, yet it evaluates to `Boolean true`, not to a
runtime type error. -/
theorem c3_counterexample :
    specListedShape Types.Nil Types.Nil TokenType.Equal = false ∧
    visit_expression
        (.Binary (.Literal ⟨.Nil, String.toList "nil", 1⟩) ⟨.Equal, ['='], 1⟩
          (.Literal ⟨.Nil, String.toList "nil", 1⟩)) =
      .ok (.Boolean true) :=
  ⟨rfl, rfl⟩

/-- C3 (amended): for every Binary expression whose operand values and
operator form none of the listed shapes nor Nil×Nil with the
single-equals `Equal` token, evaluation is a runtime error (and hence
yields no value). -/
theorem c3_binary_type_errors (e1 e2 : Expression) (op : Token) (v1 v2 : Types)
    (h1 : visit_expression e1 = .ok v1) (h2 : visit_expression e2 = .ok v2)
    (hs : specListedShapeAmended v1 v2 op.token_type = false) :
    ∃ msg, visit_expression (.Binary e1 op e2) = .error msg := by
  simp only [visit_expression, h1, h2]
  cases v1 <;> cases v2 <;>
    cases htt : op.token_type <;>
      simp_all [specListedShapeAmended, specListedShape]

/-- C3 witness: `1 == "1"` — Number×Text with `EqualEqual` is outside
the amended shape list, so it is a runtime type error. -/
theorem c3_binary_type_errors_witness :
    ∃ msg,
      visit_expression
          (.Binary (.Literal ⟨.Number (F.fin ⟨1, 1⟩), ['1'], 1⟩) ⟨.EqualEqual, ['=', '='], 1⟩
            (.Literal ⟨.StringLiteral ['1'], ['"', '1', '"'], 1⟩)) =
        .error msg :=
  c3_binary_type_errors _ _ _ _ _ rfl rfl rfl

/-- C5: for a Unary expression whose operand evaluates to `v` — with
operator `-`, a Number operand yields its negation and any non-Number
operand is the runtime error; with operator `!`, evaluation always
succeeds with a Boolean that is true exactly when `v` is `Boolean false`
or `Nil`. -/
theorem c5_unary_semantics (op : Token) (e : Expression) (v : Types)
    (h : visit_expression e = .ok v) :
    (op.token_type = .Minus →
       (∀ n, v = .Number n → visit_expression (.Unary op e) = .ok (.Number (F.neg n))) ∧
       ((∀ n, v ≠ .Number n) →
         visit_expression (.Unary op e) = .error "Unrecognized unary")) ∧
    (op.token_type = .Bang →
       ∃ b, visit_expression (.Unary op e) = .ok (.Boolean b) ∧
         (b = true ↔ (v = .Boolean false ∨ v = .Nil))) := by
  simp only [visit_expression, h]
  constructor
  · intro hm
    constructor
    · intro n hn
      subst hn
      simp [hm]
    · intro hn
      cases v with
      | Number n => exact absurd rfl (hn n)
      | ReturnString s => simp [hm]
      | Boolean b => cases b <;> simp [hm]
      | Nil => simp [hm]
  · intro hb
    cases v with
    | Number n => exact ⟨false, by simp [hb], by simp⟩
    | ReturnString s => exact ⟨false, by simp [hb], by simp⟩
    | Boolean b =>
        cases b with
        | false => exact ⟨true, by simp [hb], by simp⟩
        | true => exact ⟨false, by simp [hb], by simp⟩
    | Nil => exact ⟨true, by simp [hb], by simp⟩

/-- C5 witness: `-` on the literal 5 yields `Number (-5)`, and `!` on
the literal `nil` yields `Boolean true`. -/
theorem c5_unary_semantics_witness :
    visit_expression
        (.Unary ⟨.Minus, ['-'], 1⟩ (.Literal ⟨.Number (F.fin ⟨5, 1⟩), ['5'], 1⟩)) =
      .ok (.Number (F.neg (F.fin ⟨5, 1⟩))) ∧
    ∃ b,
      visit_expression (.Unary ⟨.Bang, ['!'], 1⟩ (.Literal ⟨.Nil, String.toList "nil", 1⟩)) =
          .ok (.Boolean b) ∧
        (b = true ↔ (Types.Nil = Types.Boolean false ∨ Types.Nil = Types.Nil)) :=
  ⟨((c5_unary_semantics ⟨.Minus, ['-'], 1⟩
        (.Literal ⟨.Number (F.fin ⟨5, 1⟩), ['5'], 1⟩) (.Number (F.fin ⟨5, 1⟩)) rfl).1 rfl).1
      (F.fin ⟨5, 1⟩) rfl,
   (c5_unary_semantics ⟨.Bang, ['!'], 1⟩
        (.Literal ⟨.Nil, String.toList "nil", 1⟩) .Nil rfl).2 rfl⟩

/-- C2 counterexample: on the source line `nil`, whose scan and parse
succeed, `run` prints the AST printer's debug rendering of the parsed
expression, while the display form of the evaluated value (what
`interpret` would print) is `nil` — the two differ, so `run` does not
print the evaluated value's display form. -/
theorem c2_counterexample :
    run (String.toList "nil") =
      PRes.ok (Except.ok "(Literal Token \x7b token_type: Nil, lexeme: \"nil\", line: 1 \x7d)") ∧
    interpret (.Literal ⟨.Nil, String.toList "nil", 1⟩) = .ok "nil" ∧
    ("(Literal Token \x7b token_type: Nil, lexeme: \"nil\", line: 1 \x7d)" : String) ≠ "nil" :=
  ⟨rfl, rfl, by decide⟩

/-- C2 (amended): for every source line whose scan and parse succeed,
`run` prints the AST printer's parenthesized rendering of the parsed
expression (not the evaluated value; `run` never evaluates), while the
separate `interpret` function — defined but never called by `run` — is
evaluate-then-display. -/
theorem c2_run_prints_ast :
    (∀ s ts e c, Scan.scan_tokens s = .ok (.ok ts) → Parse.parse ts = .ok (.ok e, c) →
       run s = .ok (.ok (astPrint e))) ∧
    (∀ e, interpret e = (visit_expression e).map displayTypes) := by
  constructor
  · intro s ts e c h1 h2
    simp only [run, h1, h2]
  · intro e
    simp only [interpret, Except.map]
    cases visit_expression e <;> rfl

/-- C2 witness: on the line `1 + 2` (scan and parse succeed concretely),
`run` prints the printer's rendering of the parsed Binary tree. -/
theorem c2_run_prints_ast_witness :
    run (String.toList "1 + 2") =
      PRes.ok (Except.ok (astPrint
        (.Binary (.Literal ⟨.Number (F.fin ⟨1, 1⟩), ['1'], 1⟩) ⟨.Plus, ['+'], 1⟩
          (.Literal ⟨.Number (F.fin ⟨2, 1⟩), ['2'], 1⟩)))) :=
  c2_run_prints_ast.1 _
    [⟨.Number (F.fin ⟨1, 1⟩), ['1'], 1⟩, ⟨.Plus, ['+'], 1⟩,
     ⟨.Number (F.fin ⟨2, 1⟩), ['2'], 1⟩, ⟨.Eof, [], 1⟩]
    _ 3 rfl rfl

/-! ### Scanner lemmas -/

namespace Scan

theorem csize_pos (c : Char) : 1 ≤ csize c := by
  unfold csize Char.utf8Size
  dsimp only
  split
  · omega
  · split
    · omega
    · split <;> omega

theorem byteLen_nil : byteLen [] = 0 := rfl

theorem byteLen_cons (c : Char) (cs : List Char) :
    byteLen (c :: cs) = csize c + byteLen cs := by
  simp [byteLen]

theorem length_le_byteLen (s : List Char) : s.length ≤ byteLen s := by
  induction s with
  | nil => simp [byteLen]
  | cons c cs ih =>
      have := csize_pos c
      simp only [byteLen_cons, List.length_cons]
      omega

theorem oneByte_of_byteLen_le {s : List Char} (h : byteLen s ≤ s.length) : OneByte s := by
  induction s with
  | nil => intro c hc; cases hc
  | cons c cs ih =>
      have h1 := csize_pos c
      have h2 := length_le_byteLen cs
      rw [byteLen_cons, List.length_cons] at h
      intro d hd
      rcases List.mem_cons.mp hd with rfl | hd
      · omega
      · exact ih (by omega) d hd

theorem byteLen_of_oneByte {s : List Char} (h : OneByte s) : byteLen s = s.length := by
  induction s with
  | nil => rfl
  | cons c cs ih =>
      rw [byteLen_cons, List.length_cons, h c (by simp),
        ih (fun d hd => h d (List.mem_cons_of_mem c hd))]
      omega

theorem oneByte_drop {s : List Char} (h : OneByte s) (a : Nat) : OneByte (s.drop a) :=
  fun c hc => h c (List.mem_of_mem_drop hc)

theorem byteDrop_oneByte {s : List Char} (h : OneByte s) (a : Nat) :
    byteDrop s a = if a ≤ s.length then some (s.drop a) else none := by
  induction s generalizing a with
  | nil =>
      cases a with
      | zero => simp [byteDrop]
      | succ a => simp [byteDrop]
  | cons c cs ih =>
      cases a with
      | zero => simp [byteDrop]
      | succ a =>
          have hc : csize c = 1 := h c (by simp)
          have hcs : OneByte cs := fun d hd => h d (List.mem_cons_of_mem c hd)
          simp only [byteDrop, hc, ih hcs]
          have : a + 1 - 1 = a := by omega
          rw [if_pos (by omega)]
          simp only [this, List.drop_succ_cons, List.length_cons]
          by_cases hle : a ≤ cs.length
          · rw [if_pos hle, if_pos (by omega)]
          · rw [if_neg hle, if_neg (by omega)]

theorem byteTake_oneByte {s : List Char} (h : OneByte s) (n : Nat) :
    byteTake s n = if n ≤ s.length then some (s.take n) else none := by
  induction s generalizing n with
  | nil =>
      cases n with
      | zero => simp [byteTake]
      | succ n => simp [byteTake]
  | cons c cs ih =>
      cases n with
      | zero => simp [byteTake]
      | succ n =>
          have hc : csize c = 1 := h c (by simp)
          have hcs : OneByte cs := fun d hd => h d (List.mem_cons_of_mem c hd)
          simp only [byteTake, hc, ih hcs]
          have : n + 1 - 1 = n := by omega
          rw [if_pos (by omega)]
          simp only [this, List.take_succ_cons, List.length_cons]
          by_cases hle : n ≤ cs.length
          · rw [if_pos hle, if_pos (by omega)]
            rfl
          · rw [if_neg hle, if_neg (by omega)]
            rfl

theorem byteSlice_oneByte {s : List Char} (h : OneByte s) (a b : Nat) :
    byteSlice s a b =
      if a ≤ b ∧ b ≤ s.length then some ((s.drop a).take (b - a)) else none := by
  unfold byteSlice
  by_cases hab : a ≤ b
  · rw [if_pos hab, byteDrop_oneByte h]
    by_cases ha : a ≤ s.length
    · rw [if_pos ha]
      simp only [Option.some_bind]
      rw [byteTake_oneByte (oneByte_drop h a), List.length_drop]
      by_cases hb : b ≤ s.length
      · rw [if_pos (by omega), if_pos ⟨hab, hb⟩]
      · rw [if_neg (by omega), if_neg (by simp [hb])]
    · rw [if_neg ha]
      simp only [Option.none_bind]
      rw [if_neg (by intro hc; exact ha (le_trans hab hc.2))]
  · rw [if_neg hab, if_neg (by intro hc; exact hab hc.1)]

theorem byteSlice_some_le {s : List Char} {a b : Nat} {l : List Char}
    (h : byteSlice s a b = some l) : a ≤ b := by
  by_contra hab
  unfold byteSlice at h
  rw [if_neg hab] at h
  cases h

theorem drop_take_quote (s : List Char) (a b : Nat)
    (ha : s[a]? = some '"') (hb : s[b]? = some '"') (hab : a + 1 ≤ b) :
    (s.drop a).take (b + 1 - a) = '"' :: (((s.drop (a + 1)).take (b - (a + 1))) ++ ['"']) := by
  have hal : a < s.length := (List.getElem?_eq_some.mp ha).1
  have hbl : b < s.length := (List.getElem?_eq_some.mp hb).1
  have hsa := (List.getElem?_eq_some.mp ha).2
  rw [List.drop_eq_getElem_cons hal]
  have h1 : b + 1 - a = (b - a) + 1 := by omega
  rw [h1, List.take_succ_cons, hsa]
  congr 1
  have h2 : b - a = (b - (a + 1)) + 1 := by omega
  rw [h2, List.take_succ, List.getElem?_drop]
  have h3 : a + 1 + (b - (a + 1)) = b := by omega
  rw [h3, hb]
  rfl

end Scan

namespace Scan

theorem advance_ok {st : St} {c : Char} {st' : St} (h : advance st = .ok (c, st')) :
    st.source[st.current]? = some c ∧ st' = { st with current := st.current + 1 } := by
  unfold advance at h
  split at h
  · cases h
  · rename_i c0 hg
    cases h
    exact ⟨hg, rfl⟩

theorem advance_lt {st : St} {c : Char} {st' : St} (h : advance st = .ok (c, st')) :
    st.current < st.source.length :=
  (List.getElem?_eq_some.mp (advance_ok h).1).1

theorem peek_ok {st : St} {c : Char} (h : peek st = .ok c) :
    (is_at_end st = true ∧ c = '\x00') ∨
      (is_at_end st = false ∧ st.source[st.current]? = some c) := by
  unfold peek at h
  split at h
  · cases h
    left
    exact ⟨by assumption, rfl⟩
  · split at h
    · cases h
    · cases h
      right
      rename_i hend _ hg
      exact ⟨by simpa using hend, hg⟩

theorem peek_lt {st : St} {c : Char} (h : peek st = .ok c) (hend : is_at_end st = false) :
    st.current < st.source.length := by
  rcases peek_ok h with ⟨h1, _⟩ | ⟨_, h2⟩
  · rw [h1] at hend; cases hend
  · exact (List.getElem?_eq_some.mp h2).1

theorem matching_spec (st : St) (e : Char) {b : Bool} {st' : St}
    (h : matching st e = (b, st')) :
    st'.source = st.source ∧ st'.start = st.start ∧ st'.tokens = st.tokens ∧
      st'.line = st.line ∧ st'.has_error = st.has_error ∧ st.current ≤ st'.current ∧
      (st'.current = st.current ∨
        (st'.current = st.current + 1 ∧ st.current < st.source.length)) := by
  unfold matching at h
  split at h
  · cases h
    exact ⟨rfl, rfl, rfl, rfl, rfl, le_refl _, Or.inl rfl⟩
  · split at h
    · cases h
      rename_i hg
      refine ⟨rfl, rfl, rfl, rfl, rfl, by simp, Or.inr ⟨rfl, ?_⟩⟩
      exact (List.getElem?_eq_some.mp hg).1
    · cases h
      exact ⟨rfl, rfl, rfl, rfl, rfl, le_refl _, Or.inl rfl⟩

theorem add_token_ok {st : St} {tt : TokenType} {st' : St} (h : add_token st tt = .ok st') :
    ∃ text, byteSlice st.source st.start st.current = some text ∧
      st' = { st with tokens := st.tokens ++ [⟨tt, text, st.line⟩] } := by
  unfold add_token at h
  split at h
  · cases h
  · rename_i text hg
    cases h
    exact ⟨text, hg, rfl⟩

end Scan

namespace Scan

theorem identLoop_ok : ∀ (fuel : Nat) (st st' : St),
    identLoop fuel st = .ok st' → LoopPres st st' := by
  intro fuel
  induction fuel with
  | zero => intro st st' h; simp [identLoop] at h
  | succ fuel ih =>
      intro st st' h
      unfold identLoop at h
      split at h
      · simp at h
      · simp at h
      · rename_i c hpk
        split at h
        · split at h
          · simp at h
          · simp at h
          · rename_i pr c0 st1 hadv
            obtain ⟨hg, rfl⟩ := advance_ok hadv
            obtain ⟨e1, e2, e3, e4, e5, e6⟩ := ih _ _ h
            have hlt : st.current < st.source.length := (List.getElem?_eq_some.mp hg).1
            dsimp only at e1 e2 e3 e4 e5 e6
            exact ⟨e1, e2, e3, e4, by omega, Or.inr (by rcases e6 with h6 | h6 <;> omega)⟩
        · cases h
          exact ⟨rfl, rfl, rfl, rfl, le_refl _, Or.inl rfl⟩

theorem digitLoop_ok : ∀ (fuel : Nat) (st st' : St),
    digitLoop fuel st = .ok st' → LoopPres st st' := by
  intro fuel
  induction fuel with
  | zero => intro st st' h; simp [digitLoop] at h
  | succ fuel ih =>
      intro st st' h
      unfold digitLoop at h
      split at h
      · simp at h
      · simp at h
      · rename_i c hpk
        split at h
        · split at h
          · simp at h
          · simp at h
          · rename_i pr c0 st1 hadv
            obtain ⟨hg, rfl⟩ := advance_ok hadv
            obtain ⟨e1, e2, e3, e4, e5, e6⟩ := ih _ _ h
            have hlt : st.current < st.source.length := (List.getElem?_eq_some.mp hg).1
            dsimp only at e1 e2 e3 e4 e5 e6
            exact ⟨e1, e2, e3, e4, by omega, Or.inr (by rcases e6 with h6 | h6 <;> omega)⟩
        · cases h
          exact ⟨rfl, rfl, rfl, rfl, le_refl _, Or.inl rfl⟩

theorem commentLoop_ok : ∀ (fuel : Nat) (st st' : St),
    commentLoop fuel st = .ok st' → LoopPres st st' := by
  intro fuel
  induction fuel with
  | zero => intro st st' h; simp [commentLoop] at h
  | succ fuel ih =>
      intro st st' h
      unfold commentLoop at h
      split at h
      · simp at h
      · simp at h
      · rename_i c hpk
        split at h
        · split at h
          · simp at h
          · simp at h
          · rename_i pr c0 st1 hadv
            obtain ⟨hg, rfl⟩ := advance_ok hadv
            obtain ⟨e1, e2, e3, e4, e5, e6⟩ := ih _ _ h
            have hlt : st.current < st.source.length := (List.getElem?_eq_some.mp hg).1
            dsimp only at e1 e2 e3 e4 e5 e6
            exact ⟨e1, e2, e3, e4, by omega, Or.inr (by rcases e6 with h6 | h6 <;> omega)⟩
        · cases h
          exact ⟨rfl, rfl, rfl, rfl, le_refl _, Or.inl rfl⟩

theorem stringLoop_ok : ∀ (fuel : Nat) (st st' : St),
    stringLoop fuel st = .ok st' →
      LoopPres st st' ∧
        (is_at_end st' = true ∨ st'.source[st'.current]? = some '"') := by
  intro fuel
  induction fuel with
  | zero => intro st st' h; simp [stringLoop] at h
  | succ fuel ih =>
      intro st st' h
      unfold stringLoop at h
      split at h
      · simp at h
      · simp at h
      · rename_i c hpk
        split at h
        · rename_i hcond
          split at h
          · dsimp only at h
            split at h
            · simp at h
            · simp at h
            · rename_i pr c0 st2 hadv
              obtain ⟨hg, rfl⟩ := advance_ok hadv
              obtain ⟨⟨e1, e2, e3, e4, e5, e6⟩, hexit⟩ := ih _ _ h
              have hlt := (List.getElem?_eq_some.mp hg).1
              dsimp only at e1 e2 e3 e4 e5 e6 hlt
              exact ⟨⟨e1, e2, e3, e4, by omega,
                Or.inr (by rcases e6 with h6 | h6 <;> omega)⟩, hexit⟩
          · dsimp only at h
            split at h
            · simp at h
            · simp at h
            · rename_i pr c0 st2 hadv
              obtain ⟨hg, rfl⟩ := advance_ok hadv
              obtain ⟨⟨e1, e2, e3, e4, e5, e6⟩, hexit⟩ := ih _ _ h
              have hlt := (List.getElem?_eq_some.mp hg).1
              dsimp only at e1 e2 e3 e4 e5 e6 hlt
              exact ⟨⟨e1, e2, e3, e4, by omega,
                Or.inr (by rcases e6 with h6 | h6 <;> omega)⟩, hexit⟩
        · rename_i hcond
          cases h
          refine ⟨⟨rfl, rfl, rfl, rfl, le_refl _, Or.inl rfl⟩, ?_⟩
          by_cases hend : is_at_end st = true
          · exact Or.inl hend
          · right
            have hendf : is_at_end st = false := by
              cases hb : is_at_end st
              · rfl
              · exact absurd hb hend
            have hc : c = '"' := by
              by_contra hne
              simp [hne, hendf] at hcond
            rcases peek_ok hpk with ⟨h1, _⟩ | ⟨_, h2⟩
            · exact absurd h1 hend
            · rw [hc] at h2
              exact h2

end Scan

namespace Scan

theorem keywordOf_spec (text : List Char) (tt : TokenType) (h : keywordOf text = some tt) :
    tt ≠ .Eof ∧ ∀ v, tt ≠ .StringLiteral v := by
  unfold keywordOf at h
  cases hf : keywords.find? (fun p => p.1 == text) with
  | none => rw [hf] at h; cases h
  | some p =>
      rw [hf] at h
      have hget : p.2 = tt := by simpa using h
      subst hget
      have hm := List.mem_of_find?_eq_some hf
      simp only [keywords, List.mem_cons, List.not_mem_nil, or_false] at hm
      rcases hm with h|h|h|h|h|h|h|h|h|h|h|h|h|h|h|h <;> (subst h; exact ⟨by simp, by simp⟩)

theorem identifier_ok {fuel : Nat} {st st' : St} (h : identifier fuel st = .ok st') :
    StepPres st st' := by
  unfold identifier at h
  split at h
  · simp at h
  · simp at h
  · rename_i st1 hloop
    obtain ⟨e1, e2, e3, e4, e5, e6⟩ := identLoop_ok _ _ _ hloop
    split at h
    · simp at h
    · rename_i text hslice
      have hadd : ∃ tt0, add_token st1 tt0 = .ok st' ∧
          tt0 ≠ TokenType.Eof ∧ ∀ v, tt0 ≠ TokenType.StringLiteral v := by
        split at h
        · rename_i tt0 hkw
          exact ⟨tt0, h, keywordOf_spec _ _ hkw⟩
        · exact ⟨.Identifier, h, by simp, by simp⟩
      obtain ⟨tt0, hat, htt⟩ := hadd
      obtain ⟨text2, hslice2, rfl⟩ := add_token_ok hat
      refine ⟨e1, e2, by simpa using e5, by simpa using e6, [⟨tt0, text2, st1.line⟩], by rw [e3], ?_⟩
      intro t ht
      rcases List.mem_singleton.mp ht with rfl
      refine ⟨htt.1, st1.start, st1.current, ?_, ?_⟩
      · rw [← e1]
        simpa using hslice2
      · intro v hv
        exact absurd hv (htt.2 v)

end Scan

namespace Scan

theorem numberFinish_ok {st1 st' : St}
    (h : (match byteSlice st1.source st1.start st1.current with
          | none => (PRes.crash : PRes St)
          | some text =>
              match parseNumberLit text with
              | none => PRes.crash
              | some q => add_token st1 (.Number q)) = .ok st') :
    ∃ tok : Token, st' = { st1 with tokens := st1.tokens ++ [tok] } ∧
      tok.token_type ≠ .Eof ∧ TokSpan st1.source tok := by
  split at h
  · simp at h
  · rename_i text hslice
    split at h
    · simp at h
    · rename_i q hq
      obtain ⟨text2, hslice2, rfl⟩ := add_token_ok h
      refine ⟨⟨.Number q, text2, st1.line⟩, rfl, by simp, st1.start, st1.current, hslice2, ?_⟩
      intro v hv
      cases hv

theorem number_ok {fuel : Nat} {st st' : St} (h : number fuel st = .ok st') :
    StepPres st st' := by
  unfold number at h
  split at h
  · simp at h
  · simp at h
  · rename_i st1 hloop1
    obtain ⟨e1, e2, e3, e4, e5, e6⟩ := digitLoop_ok _ _ _ hloop1
    split at h
    · simp at h
    · simp at h
    · rename_i c hpk
      dsimp only at h
      have hfin : ∀ st2 : St, st2.source = st.source → st2.start = st.start →
          st.current ≤ st2.current → (st2.current = st.current ∨ st2.current ≤ st.source.length) →
          st2.tokens = st.tokens →
          (match byteSlice st2.source st2.start st2.current with
           | none => (PRes.crash : PRes St)
           | some text =>
               match parseNumberLit text with
               | none => PRes.crash
               | some q => add_token st2 (.Number q)) = .ok st' →
          StepPres st st' := by
        intro st2 f1 f2 f3 f4 f5 hm
        obtain ⟨tok, rfl, htt, a, b, hsl, hstr⟩ := numberFinish_ok hm
        refine ⟨f1, f2, by simpa using f3, by simpa using f4, [tok], by rw [f5], ?_⟩
        intro t ht
        rcases List.mem_singleton.mp ht with rfl
        rw [f1] at hsl hstr
        exact ⟨htt, a, b, hsl, hstr⟩
      split at h
      · split at h
        · simp at h
        · simp at h
        · rename_i c2 hpk2
          split at h
          · split at h
            · simp at h
            · simp at h
            · rename_i pr c0 st2 hadv
              obtain ⟨hg, rfl⟩ := advance_ok hadv
              have hlt : st1.current < st1.source.length := (List.getElem?_eq_some.mp hg).1
              split at h
              · simp at h
              · simp at h
              · rename_i st3 hloop2
                obtain ⟨g1, g2, g3, g4, g5, g6⟩ := digitLoop_ok _ _ _ hloop2
                dsimp only at g1 g2 g3 g4 g5 g6
                refine hfin st3 (by rw [g1, e1]) (by rw [g2, e2]) (by omega) ?_ (by rw [g3, e3]) h
                right
                rw [e1] at hlt
                rcases g6 with h6 | h6
                · omega
                · rw [e1] at h6; omega
          · exact hfin st1 e1 e2 e5 e6 e3 h
      · exact hfin st1 e1 e2 e5 e6 e3 h

end Scan

namespace Scan

theorem stringFn_ok {fuel : Nat} {st st' : St} (h : stringFn fuel st = .ok st')
    (hq : st.source[st.start]? = some '"') (hcs : st.current = st.start + 1) :
    StepPres st st' := by
  unfold stringFn at h
  split at h
  · simp at h
  · simp at h
  · rename_i st1 hloop
    obtain ⟨⟨e1, e2, e3, e4, e5, e6⟩, hexit⟩ := stringLoop_ok _ _ _ hloop
    split at h
    · cases h
      exact ⟨e1, e2, e5, e6, [], by simp [e3], by simp⟩
    · rename_i hend
      have hq2 : st1.source[st1.current]? = some '"' := by
        rcases hexit with h1 | h2
        · exact absurd h1 hend
        · exact h2
      split at h
      · simp at h
      · simp at h
      · rename_i pr c0 st2 hadv
        obtain ⟨hg, rfl⟩ := advance_ok hadv
        have hlt : st1.current < st1.source.length := (List.getElem?_eq_some.mp hg).1
        split at h
        · simp at h
        · rename_i value hvslice
          obtain ⟨text2, hslice2, rfl⟩ := add_token_ok h
          dsimp only at hvslice hslice2 ⊢
          rw [e1] at hlt
          refine ⟨e1, e2, by dsimp only; omega, Or.inr (by dsimp only; omega),
            [⟨.StringLiteral value, text2, st1.line⟩], by dsimp only; rw [e3], ?_⟩
          intro t ht
          rcases List.mem_singleton.mp ht with rfl
          rw [e1, e2] at hslice2 hvslice
          refine ⟨by simp, st.start, st1.current + 1, by simpa using hslice2, ?_⟩
          intro v hv
          have hvv : v = value := by
            simpa using hv.symm
          subst hvv
          have hidx : st1.current + 1 - 1 = st1.current := by omega
          refine ⟨hq, ?_, by omega, ?_⟩
          · rw [hidx, ← e1]
            exact hq2
          · rw [hidx]
            rw [hidx] at hvslice
            exact hvslice
  
end Scan

namespace Scan

theorem scan_token_ok {st st' : St} (hstart : st.start = st.current)
    (h : scan_token st = .ok st') :
    st'.source = st.source ∧ st'.start = st.start ∧ st.current < st'.current ∧
      st'.current ≤ st.source.length ∧
      ∃ ext, st'.tokens = st.tokens ++ ext ∧
        ∀ t ∈ ext, t.token_type ≠ TokenType.Eof ∧ TokSpan st.source t := by
  unfold scan_token at h
  split at h
  · simp at h
  · simp at h
  · rename_i pr c st1x hadv
    obtain ⟨hg, rfl⟩ := advance_ok hadv
    have hlt : st.current < st.source.length := (List.getElem?_eq_some.mp hg).1
    dsimp only at h
    generalize hst1 : { st with current := st.current + 1 } = st1 at h
    have hs1a : st1.source = st.source := by rw [← hst1]
    have hs1b : st1.start = st.start := by rw [← hst1]
    have hs1c : st1.current = st.current + 1 := by rw [← hst1]
    have hs1d : st1.tokens = st.tokens := by rw [← hst1]
    have hadd : ∀ (st2 : St) (tt : TokenType), add_token st2 tt = .ok st' →
        st2.source = st.source → st2.start = st.start → st2.tokens = st.tokens →
        st.current < st2.current → st2.current ≤ st.source.length →
        (∀ v, tt ≠ TokenType.StringLiteral v) → tt ≠ TokenType.Eof →
        st'.source = st.source ∧ st'.start = st.start ∧ st.current < st'.current ∧
          st'.current ≤ st.source.length ∧
          ∃ ext, st'.tokens = st.tokens ++ ext ∧
            ∀ t ∈ ext, t.token_type ≠ TokenType.Eof ∧ TokSpan st.source t := by
      intro st2 tt hat f1 f2 f3 f4 f5 hnotstr hnoteof
      obtain ⟨text, hsl, rfl⟩ := add_token_ok hat
      refine ⟨f1, f2, by simpa using f4, by simpa using f5, [⟨tt, text, st2.line⟩],
        by dsimp only; rw [f3], ?_⟩
      intro t ht
      rcases List.mem_singleton.mp ht with rfl
      rw [f1, f2] at hsl
      refine ⟨hnoteof, st.start, st2.current, hsl, ?_⟩
      intro v hv
      exact absurd hv (hnotstr v)
    have hstep : ∀ st2 : St, st2.source = st.source → st2.start = st.start →
        st2.tokens = st.tokens → st.current < st2.current → st2.current ≤ st.source.length →
        StepPres st2 st' →
        st'.source = st.source ∧ st'.start = st.start ∧ st.current < st'.current ∧
          st'.current ≤ st.source.length ∧
          ∃ ext, st'.tokens = st.tokens ++ ext ∧
            ∀ t ∈ ext, t.token_type ≠ TokenType.Eof ∧ TokSpan st.source t := by
      intro st2 f1 f2 f3 f4 f5 hsp
      obtain ⟨p1, p2, p3, p4, ext, p5, p6⟩ := hsp
      refine ⟨by rw [p1, f1], by rw [p2, f2], by omega, ?_, ext, by rw [p5, f3], ?_⟩
      · rcases p4 with h4 | h4
        · omega
        · rw [f1] at h4; omega
      · intro t ht
        obtain ⟨q1, q2⟩ := p6 t ht
        rw [f1] at q2
        exact ⟨q1, q2⟩
    have hmat2 : ∀ (m : Bool) (st2 : St), matching st1 '=' = (m, st2) →
        st2.source = st.source ∧ st2.start = st.start ∧ st2.tokens = st.tokens ∧
          st.current < st2.current ∧ st2.current ≤ st.source.length := by
      intro m st2 hm
      obtain ⟨f1, f2, f3, _, _, f6, f7⟩ := matching_spec _ _ hm
      rw [hs1a] at f1
      rw [hs1b] at f2
      rw [hs1d] at f3
      rw [hs1c] at f6
      refine ⟨f1, f2, f3, by omega, ?_⟩
      rcases f7 with h7 | ⟨h7a, h7b⟩
      · omega
      · rw [hs1c] at h7a
        rw [hs1a, hs1c] at h7b
        omega
    split at h
    · exact hadd st1 _ h hs1a hs1b hs1d (by omega) (by omega) (by simp) (by simp)
    · exact hadd st1 _ h hs1a hs1b hs1d (by omega) (by omega) (by simp) (by simp)
    · exact hadd st1 _ h hs1a hs1b hs1d (by omega) (by omega) (by simp) (by simp)
    · exact hadd st1 _ h hs1a hs1b hs1d (by omega) (by omega) (by simp) (by simp)
    · exact hadd st1 _ h hs1a hs1b hs1d (by omega) (by omega) (by simp) (by simp)
    · exact hadd st1 _ h hs1a hs1b hs1d (by omega) (by omega) (by simp) (by simp)
    · exact hadd st1 _ h hs1a hs1b hs1d (by omega) (by omega) (by simp) (by simp)
    · exact hadd st1 _ h hs1a hs1b hs1d (by omega) (by omega) (by simp) (by simp)
    · exact hadd st1 _ h hs1a hs1b hs1d (by omega) (by omega) (by simp) (by simp)
    · exact hadd st1 _ h hs1a hs1b hs1d (by omega) (by omega) (by simp) (by simp)
    · -- exclamation mark
      generalize hmr : matching st1 '=' = mr at h
      obtain ⟨m, st2⟩ := mr
      dsimp only at h
      obtain ⟨f1, f2, f3, f4, f5⟩ := hmat2 m st2 hmr
      split at h
      · exact hadd _ _ h f1 f2 f3 f4 f5 (by simp) (by simp)
      · exact hadd _ _ h f1 f2 f3 f4 f5 (by simp) (by simp)
    · -- equals sign
      generalize hmr : matching st1 '=' = mr at h
      obtain ⟨m, st2⟩ := mr
      dsimp only at h
      obtain ⟨f1, f2, f3, f4, f5⟩ := hmat2 m st2 hmr
      split at h
      · exact hadd _ _ h f1 f2 f3 f4 f5 (by simp) (by simp)
      · exact hadd _ _ h f1 f2 f3 f4 f5 (by simp) (by simp)
    · -- less-than sign
      generalize hmr : matching st1 '=' = mr at h
      obtain ⟨m, st2⟩ := mr
      dsimp only at h
      obtain ⟨f1, f2, f3, f4, f5⟩ := hmat2 m st2 hmr
      split at h
      · exact hadd _ _ h f1 f2 f3 f4 f5 (by simp) (by simp)
      · exact hadd _ _ h f1 f2 f3 f4 f5 (by simp) (by simp)
    · -- greater-than sign
      generalize hmr : matching st1 '=' = mr at h
      obtain ⟨m, st2⟩ := mr
      dsimp only at h
      obtain ⟨f1, f2, f3, f4, f5⟩ := hmat2 m st2 hmr
      split at h
      · exact hadd _ _ h f1 f2 f3 f4 f5 (by simp) (by simp)
      · exact hadd _ _ h f1 f2 f3 f4 f5 (by simp) (by simp)
    · -- slash: comment or divide, via matching on the second slash
      generalize hmr : matching st1 '/' = mr at h
      obtain ⟨m, st2⟩ := mr
      dsimp only at h
      obtain ⟨f1, f2, f3, _, _, f6, f7⟩ := matching_spec _ _ hmr
      rw [hs1a] at f1
      rw [hs1b] at f2
      rw [hs1d] at f3
      rw [hs1c] at f6
      have hb : st.current < st2.current ∧ st2.current ≤ st.source.length := by
        rcases f7 with h7 | ⟨h7a, h7b⟩
        · omega
        · rw [hs1c] at h7a
          rw [hs1a, hs1c] at h7b
          omega
      split at h
      · obtain ⟨e1, e2, e3, e4, e5, e6⟩ := commentLoop_ok _ _ _ h
        refine ⟨by rw [e1, f1], by rw [e2, f2], by omega, ?_, [],
          by rw [e3, f3, List.append_nil], by simp⟩
        rcases e6 with h6 | h6
        · omega
        · rw [f1] at h6; omega
      · exact hadd _ _ h f1 f2 f3 hb.1 hb.2 (by simp) (by simp)
    · -- space
      cases h
      exact ⟨hs1a, hs1b, by omega, by omega, [], by rw [hs1d, List.append_nil], by simp⟩
    · -- carriage return
      cases h
      exact ⟨hs1a, hs1b, by omega, by omega, [], by rw [hs1d, List.append_nil], by simp⟩
    · -- tab
      cases h
      exact ⟨hs1a, hs1b, by omega, by omega, [], by rw [hs1d, List.append_nil], by simp⟩
    · -- newline
      cases h
      exact ⟨rfl, rfl, Nat.lt_succ_self _, hlt, [], by simp, by simp⟩
    · -- opening quote: string literal
      refine hstep st1 hs1a hs1b hs1d (by omega) (by omega) ?_
      refine stringFn_ok h ?_ ?_
      · rw [hs1a, hs1b, hstart]
        exact hg
      · rw [hs1c, hs1b, hstart]
    · -- default: digit, alpha, or lexical error
      split at h
      · exact hstep st1 hs1a hs1b hs1d (by omega) (by omega) (number_ok h)
      · split at h
        · exact hstep st1 hs1a hs1b hs1d (by omega) (by omega) (identifier_ok h)
        · cases h
          exact ⟨rfl, rfl, Nat.lt_succ_self _, hlt, [], by simp, by simp⟩

end Scan

namespace Scan

theorem scanLoop_ok : ∀ (fuel : Nat) (st st' : St), scanLoop fuel st = .ok st' →
    st.current ≤ st.source.length →
    st'.source = st.source ∧ st.current ≤ st'.current ∧ st'.current ≤ st.source.length ∧
      (is_at_end st' = true ∨ st'.has_error = true) ∧
      ∃ ext, st'.tokens = st.tokens ++ ext ∧
        ∀ t ∈ ext, t.token_type ≠ TokenType.Eof ∧ TokSpan st.source t := by
  intro fuel
  induction fuel with
  | zero => intro st st' h hc; simp [scanLoop] at h
  | succ fuel ih =>
      intro st st' h hc
      unfold scanLoop at h
      split at h
      · rename_i hcond
        split at h
        · simp at h
        · simp at h
        · rename_i stm hstm
          obtain ⟨g1, g2, g3, g4, ext1, g5, g6⟩ := scan_token_ok rfl hstm
          dsimp only at g1 g2 g3 g4 g5 g6
          obtain ⟨e1, e2, e3, e4, ext2, e5, e6⟩ := ih stm st' h (by rw [g1]; exact g4)
          rw [g1] at e1 e3 e6
          refine ⟨e1, by omega, e3, e4, ext1 ++ ext2, ?_, ?_⟩
          · rw [e5, g5, List.append_assoc]
          · intro t ht
            rcases List.mem_append.mp ht with h1 | h2
            · exact g6 t h1
            · exact e6 t h2
      · rename_i hcond
        cases h
        have hex : is_at_end st = true ∨ st.has_error = true := by
          by_contra hno
          push_neg at hno
          simp [Bool.not_eq_true] at hno
          simp [hno.1, hno.2] at hcond
        exact ⟨rfl, le_refl _, hc, hex, [], by simp, by simp⟩

theorem advance_ne_out (st : St) : advance st ≠ .out := by
  unfold advance
  split <;> simp

theorem add_token_ne_out (st : St) (tt : TokenType) : add_token st tt ≠ .out := by
  unfold add_token
  split <;> simp

theorem peek_ne_out (st : St) : peek st ≠ .out := by
  unfold peek
  split
  · simp
  · split <;> simp

theorem peek_next_ne_out (st : St) : peek_next st ≠ .out := by
  unfold peek_next
  split
  · simp
  · split <;> simp

theorem identLoop_not_out : ∀ (fuel : Nat) (st : St),
    st.source.length - st.current < fuel → identLoop fuel st ≠ .out := by
  intro fuel
  induction fuel with
  | zero => intro st hf; omega
  | succ fuel ih =>
      intro st hf h
      unfold identLoop at h
      split at h
      · cases h
      · rename_i hpk
        exact peek_ne_out st hpk
      · split at h
        · split at h
          · cases h
          · rename_i hadv
            exact advance_ne_out st hadv
          · rename_i pr c0 st1 hadv
            obtain ⟨hg, rfl⟩ := advance_ok hadv
            have hlt : st.current < st.source.length := (List.getElem?_eq_some.mp hg).1
            exact ih _ (by dsimp only; omega) h
        · cases h

theorem digitLoop_not_out : ∀ (fuel : Nat) (st : St),
    st.source.length - st.current < fuel → digitLoop fuel st ≠ .out := by
  intro fuel
  induction fuel with
  | zero => intro st hf; omega
  | succ fuel ih =>
      intro st hf h
      unfold digitLoop at h
      split at h
      · cases h
      · rename_i hpk
        exact peek_ne_out st hpk
      · split at h
        · split at h
          · cases h
          · rename_i hadv
            exact advance_ne_out st hadv
          · rename_i pr c0 st1 hadv
            obtain ⟨hg, rfl⟩ := advance_ok hadv
            have hlt : st.current < st.source.length := (List.getElem?_eq_some.mp hg).1
            exact ih _ (by dsimp only; omega) h
        · cases h

theorem commentLoop_not_out : ∀ (fuel : Nat) (st : St),
    st.source.length - st.current < fuel → commentLoop fuel st ≠ .out := by
  intro fuel
  induction fuel with
  | zero => intro st hf; omega
  | succ fuel ih =>
      intro st hf h
      unfold commentLoop at h
      split at h
      · cases h
      · rename_i hpk
        exact peek_ne_out st hpk
      · split at h
        · split at h
          · cases h
          · rename_i hadv
            exact advance_ne_out st hadv
          · rename_i pr c0 st1 hadv
            obtain ⟨hg, rfl⟩ := advance_ok hadv
            have hlt : st.current < st.source.length := (List.getElem?_eq_some.mp hg).1
            exact ih _ (by dsimp only; omega) h
        · cases h

theorem stringLoop_not_out : ∀ (fuel : Nat) (st : St),
    st.source.length - st.current < fuel → stringLoop fuel st ≠ .out := by
  intro fuel
  induction fuel with
  | zero => intro st hf; omega
  | succ fuel ih =>
      intro st hf h
      unfold stringLoop at h
      split at h
      · cases h
      · rename_i hpk
        exact peek_ne_out st hpk
      · split at h
        · split at h
          · dsimp only at h
            split at h
            · cases h
            · rename_i hadv
              exact advance_ne_out _ hadv
            · rename_i pr c0 st1 hadv
              obtain ⟨hg, rfl⟩ := advance_ok hadv
              have hlt := (List.getElem?_eq_some.mp hg).1
              dsimp only at hlt
              exact ih _ (by dsimp only; omega) h
          · dsimp only at h
            split at h
            · cases h
            · rename_i hadv
              exact advance_ne_out _ hadv
            · rename_i pr c0 st1 hadv
              obtain ⟨hg, rfl⟩ := advance_ok hadv
              have hlt := (List.getElem?_eq_some.mp hg).1
              exact ih _ (by dsimp only; omega) h
        · cases h

end Scan

namespace Scan

theorem identifier_not_out {fuel : Nat} {st : St} (hf : st.source.length < fuel) :
    identifier fuel st ≠ .out := by
  intro h
  unfold identifier at h
  split at h
  · cases h
  · rename_i hloop
    exact identLoop_not_out fuel st (by omega) hloop
  · split at h
    · cases h
    · split at h
      · exact add_token_ne_out _ _ h
      · exact add_token_ne_out _ _ h

theorem number_not_out {fuel : Nat} {st : St} (hf : st.source.length < fuel) :
    number fuel st ≠ .out := by
  intro h
  unfold number at h
  split at h
  · cases h
  · rename_i hloop
    exact digitLoop_not_out fuel st (by omega) hloop
  · rename_i st1 hloop1
    obtain ⟨e1, _, _, _, _, _⟩ := digitLoop_ok _ _ _ hloop1
    split at h
    · cases h
    · rename_i hpk
      exact peek_ne_out st1 hpk
    · dsimp only at h
      split at h
      · split at h
        · cases h
        · rename_i hpk2
          exact peek_next_ne_out st1 hpk2
        · split at h
          · split at h
            · cases h
            · rename_i hadv
              exact advance_ne_out _ hadv
            · rename_i pr c0 st2 hadv
              obtain ⟨hg, rfl⟩ := advance_ok hadv
              split at h
              · cases h
              · rename_i hloop2
                refine digitLoop_not_out fuel _ ?_ hloop2
                dsimp only
                rw [e1]
                omega
              · rename_i st3 hloop2
                split at h
                · cases h
                · split at h
                  · cases h
                  · exact add_token_ne_out _ _ h
          · split at h
            · cases h
            · split at h
              · cases h
              · exact add_token_ne_out _ _ h
      · split at h
        · cases h
        · split at h
          · cases h
          · exact add_token_ne_out _ _ h

theorem stringFn_not_out {fuel : Nat} {st : St} (hf : st.source.length < fuel) :
    stringFn fuel st ≠ .out := by
  intro h
  unfold stringFn at h
  split at h
  · cases h
  · rename_i hloop
    exact stringLoop_not_out fuel st (by omega) hloop
  · split at h
    · cases h
    · split at h
      · cases h
      · rename_i hadv
        exact advance_ne_out _ hadv
      · split at h
        · cases h
        · exact add_token_ne_out _ _ h

theorem scan_token_not_out (st : St) : scan_token st ≠ .out := by
  intro h
  unfold scan_token at h
  split at h
  · cases h
  · rename_i hadv
    exact advance_ne_out _ hadv
  · rename_i pr c st1 hadv
    obtain ⟨hg, rfl⟩ := advance_ok hadv
    dsimp only at h
    have hfuel : st.source.length < byteLen st.source + 1 := by
      have := length_le_byteLen st.source
      omega
    split at h
    · exact add_token_ne_out _ _ h
    · exact add_token_ne_out _ _ h
    · exact add_token_ne_out _ _ h
    · exact add_token_ne_out _ _ h
    · exact add_token_ne_out _ _ h
    · exact add_token_ne_out _ _ h
    · exact add_token_ne_out _ _ h
    · exact add_token_ne_out _ _ h
    · exact add_token_ne_out _ _ h
    · exact add_token_ne_out _ _ h
    · split at h
      · exact add_token_ne_out _ _ h
      · exact add_token_ne_out _ _ h
    · split at h
      · exact add_token_ne_out _ _ h
      · exact add_token_ne_out _ _ h
    · split at h
      · exact add_token_ne_out _ _ h
      · exact add_token_ne_out _ _ h
    · split at h
      · exact add_token_ne_out _ _ h
      · exact add_token_ne_out _ _ h
    · generalize hmr : matching { st with current := st.current + 1 } '/' = mr at h
      obtain ⟨m, st2⟩ := mr
      dsimp only at h
      obtain ⟨f1, _, _, _, _, _, _⟩ :=
        matching_spec { st with current := st.current + 1 } '/' hmr
      dsimp only at f1
      split at h
      · refine commentLoop_not_out _ _ ?_ h
        rw [f1]
        omega
      · exact add_token_ne_out _ _ h
    · cases h
    · cases h
    · cases h
    · cases h
    · refine stringFn_not_out ?_ h
      dsimp only
      omega
    · split at h
      · refine number_not_out ?_ h
        dsimp only
        omega
      · split at h
        · refine identifier_not_out ?_ h
          dsimp only
          omega
        · cases h

theorem scanLoop_not_out : ∀ (fuel : Nat) (st : St),
    byteLen st.source - st.current < fuel → scanLoop fuel st ≠ .out := by
  intro fuel
  induction fuel with
  | zero => intro st hf; omega
  | succ fuel ih =>
      intro st hf h
      unfold scanLoop at h
      split at h
      · rename_i hcond
        split at h
        · cases h
        · rename_i hstm
          exact scan_token_not_out _ hstm
        · rename_i stm hstm
          obtain ⟨g1, _, g3, g4, _, _, _⟩ := scan_token_ok rfl hstm
          dsimp only at g1 g3 g4
          have hend : st.current < byteLen st.source := by
            by_contra hno
            have : is_at_end st = true := by
              unfold is_at_end
              simp
              omega
            simp [this] at hcond
          refine ih stm ?_ h
          rw [g1]
          omega
      · cases h

theorem scan_tokens_not_out (s : List Char) : scan_tokens s ≠ .out := by
  intro h
  unfold scan_tokens at h
  split at h
  · cases h
  · rename_i hs
    exact scanLoop_not_out _ _ (by simp [init]) hs
  · split at h <;> cases h

end Scan

namespace Scan

theorem scan_tokens_shape {s : List Char} {ts : List Token}
    (h : scan_tokens s = .ok (.ok ts)) :
    OneByte s ∧ ∃ toks lineN, ts = toks ++ [⟨.Eof, [], lineN⟩] ∧
      ∀ t ∈ toks, t.token_type ≠ TokenType.Eof ∧ TokSpan s t := by
  unfold scan_tokens at h
  split at h
  · cases h
  · cases h
  · rename_i stF hloop
    obtain ⟨e1, e2, e3, e4, ext, e5, e6⟩ := scanLoop_ok _ _ _ hloop (by simp [init])
    simp only [init] at e1 e3 e5 e6
    split at h
    · simp at h
    · rename_i herr
      simp only [PRes.ok.injEq, Except.ok.injEq] at h
      subst h
      constructor
      · apply oneByte_of_byteLen_le
        have hend : is_at_end stF = true := by
          rcases e4 with h4 | h4
          · exact h4
          · rw [h4] at herr; cases herr rfl
        unfold is_at_end at hend
        simp only [decide_eq_true_eq] at hend
        rw [e1] at hend
        omega
      · exact ⟨ext, stF.line, by rw [e5, List.nil_append], e6⟩

theorem scan_tokens_error_msg {s : List Char} {e : String}
    (h : scan_tokens s = .ok (.error e)) : e = "error while scanning" := by
  unfold scan_tokens at h
  split at h
  · cases h
  · cases h
  · split at h
    · simp only [PRes.ok.injEq] at h
      cases h
      rfl
    · simp at h

end Scan

/-- C7 counterexample: on the source `"aé"` (a string literal containing
a two-byte character) the scan neither fails as a whole with a scan
error nor succeeds with a token sequence — it crashes (Rust panic on a
non-boundary byte slice), so the claim's two-way alternative over every
source string is false. -/
theorem c7_counterexample : Scan.scan_tokens (String.toList "\"aé\"") = PRes.crash := rfl

/-- C7 (amended): for every source string, the scan either panics
(possible only when a multi-byte character is consumed), fails as a
whole with the single scan error and no token sequence, or succeeds with
a token sequence carrying exactly one end-of-stream token, at the end.
The fuel artifact is also ruled out (`scan_tokens` never runs out). -/
theorem c7_scan_error_policy (s : List Char) :
    Scan.scan_tokens s = PRes.crash ∨
      Scan.scan_tokens s = PRes.ok (Except.error "error while scanning") ∨
      ∃ ts, Scan.scan_tokens s = PRes.ok (Except.ok ts) ∧ ts ≠ [] ∧
        (∃ t, ts.getLast? = some t ∧ t.token_type = TokenType.Eof) ∧
        ts.countP (fun t => t.token_type == TokenType.Eof) = 1 := by
  cases hres : Scan.scan_tokens s with
  | crash => exact Or.inl rfl
  | out => exact absurd hres (Scan.scan_tokens_not_out s)
  | ok r =>
      cases r with
      | error e =>
          right; left
          have hmsg := Scan.scan_tokens_error_msg hres
          subst hmsg
          rfl
      | ok ts =>
          right; right
          obtain ⟨_, toks, lineN, rfl, htoks⟩ := Scan.scan_tokens_shape hres
          refine ⟨_, rfl, by simp, ⟨⟨.Eof, [], lineN⟩, List.getLast?_concat _, rfl⟩, ?_⟩
          rw [List.countP_append]
          have hz : toks.countP (fun t => t.token_type == TokenType.Eof) = 0 :=
            List.countP_eq_zero.mpr (fun t ht => by simp [(htoks t ht).1])
          simp [hz]

/-- C8: every token of a successful scan has a lexeme that is the exact
contiguous substring of the source it was scanned from (a drop/take span
of the source), and a string-literal token's stored value is that
substring with the surrounding quotes removed (the lexeme is exactly
`"` ++ value ++ `"`).  A successful scan forces every source character
to be a single UTF-8 byte (multi-byte sources crash or fail), so the
claim holds for every source string, multi-byte ones included. -/
theorem c8_lexemes_exact (s : List Char) (ts : List Token)
    (h : Scan.scan_tokens s = PRes.ok (Except.ok ts)) :
    ∀ t ∈ ts,
      (∃ a b, a ≤ b ∧ b ≤ s.length ∧ t.lexeme = (s.drop a).take (b - a)) ∧
      (∀ v, t.token_type = TokenType.StringLiteral v →
        t.lexeme = '"' :: (v ++ ['"'])) := by
  obtain ⟨hob, toks, lineN, rfl, htoks⟩ := Scan.scan_tokens_shape h
  intro t ht
  rcases List.mem_append.mp ht with h1 | h2
  · obtain ⟨hne, a, b, hsl, hstr⟩ := htoks t h1
    rw [Scan.byteSlice_oneByte hob] at hsl
    have hcond : a ≤ b ∧ b ≤ s.length := by
      by_contra hc
      rw [if_neg hc] at hsl
      cases hsl
    rw [if_pos hcond] at hsl
    have hlex : t.lexeme = (s.drop a).take (b - a) := by
      simpa using hsl.symm
    refine ⟨⟨a, b, hcond.1, hcond.2, hlex⟩, ?_⟩
    intro v hv
    obtain ⟨hqa, hqb, hab, hvs⟩ := hstr v hv
    rw [Scan.byteSlice_oneByte hob] at hvs
    have hvcond : a + 1 ≤ b - 1 ∧ b - 1 ≤ s.length := by
      by_contra hc
      rw [if_neg hc] at hvs
      cases hvs
    rw [if_pos hvcond] at hvs
    have hval : v = (s.drop (a + 1)).take (b - 1 - (a + 1)) := by
      simpa using hvs.symm
    have hq := Scan.drop_take_quote s a (b - 1) hqa hqb (by omega)
    rw [hlex, hval]
    have hb1 : b - 1 + 1 = b := by omega
    rw [hb1] at hq
    exact hq
  · rcases List.mem_singleton.mp h2 with rfl
    exact ⟨⟨0, 0, le_refl 0, Nat.zero_le _, by simp⟩, by intro v hv; cases hv⟩

/-- C8 witness: scanning the concrete source `"ab"` succeeds; its
string-literal token's lexeme is the exact source span and equals the
quoted value. -/
theorem c8_lexemes_exact_witness :
    (∃ a b, a ≤ b ∧ b ≤ (String.toList "\"ab\"").length ∧
       (Token.mk (TokenType.StringLiteral ['a', 'b']) ['"', 'a', 'b', '"'] 1).lexeme =
         ((String.toList "\"ab\"").drop a).take (b - a)) ∧
    (∀ v, (Token.mk (TokenType.StringLiteral ['a', 'b']) ['"', 'a', 'b', '"'] 1).token_type =
        TokenType.StringLiteral v →
      (Token.mk (TokenType.StringLiteral ['a', 'b']) ['"', 'a', 'b', '"'] 1).lexeme =
        '"' :: (v ++ ['"'])) :=
  c8_lexemes_exact (String.toList "\"ab\"")
    [⟨TokenType.StringLiteral ['a', 'b'], ['"', 'a', 'b', '"'], 1⟩, ⟨TokenType.Eof, [], 1⟩]
    rfl _ (by decide)

namespace Parse

theorem peekT_lt {ts : List Token} {c : Nat} {t : Token} (h : peekT ts c = some t) :
    c < ts.length :=
  (List.getElem?_eq_some.mp h).1

theorem peekT_not_last {ts : List Token} (hE : EofTerminated ts) {c : Nat} {t : Token}
    (h : peekT ts c = some t) (hne : t.token_type ≠ TokenType.Eof) :
    c + 1 < ts.length := by
  obtain ⟨tl, hlast, heof⟩ := hE
  have hclt := peekT_lt h
  by_contra hge
  have hceq : c = ts.length - 1 := by omega
  rw [List.getLast?_eq_getElem?] at hlast
  rw [← hceq] at hlast
  unfold peekT at h
  rw [h] at hlast
  cases hlast
  exact hne heof

theorem at_endT_false {ts : List Token} {c : Nat} {t : Token}
    (h : peekT ts c = some t) (hne : t.token_type ≠ TokenType.Eof) :
    at_endT ts c = false := by
  unfold at_endT
  rw [h]
  simpa using hne

theorem advanceT_spec {ts : List Token} (hE : EofTerminated ts) {c : Nat} {t : Token}
    (h : peekT ts c = some t) (hne : t.token_type ≠ TokenType.Eof) :
    advanceT ts c = some (some t, c + 1) ∧ c + 1 < ts.length := by
  refine ⟨?_, peekT_not_last hE h hne⟩
  unfold advanceT
  rw [at_endT_false h hne]
  simp only [Bool.false_eq_true, if_neg (by simp : ¬False)]
  unfold previousT
  rw [if_neg (by omega : ¬(c + 1 = 0))]
  simp only [Nat.add_sub_cancel]
  unfold peekT at h
  rw [h]

theorem advanceT_at_eof {ts : List Token} {c : Nat} (h : at_endT ts c = true) :
    ∀ r c', advanceT ts c = some (r, c') → c' = c := by
  intro r c' hadv
  unfold advanceT at hadv
  rw [h] at hadv
  have hid : (if (true : Bool) = true then c else c + 1) = c := by simp
  rw [hid] at hadv
  dsimp only at hadv
  split at hadv
  · cases hadv
  · simp only [Option.some.injEq, Prod.mk.injEq] at hadv
    exact hadv.2.symm

end Parse

namespace Parse

theorem inv_mono {ts : List Token} {c c0 : Nat} {res : PR} (hcc : c ≤ c0)
    (h : res ≠ .crash ∧ ∀ r c', res = .ok (r, c') → c0 ≤ c' ∧ c' < ts.length) :
    res ≠ .crash ∧ ∀ r c', res = .ok (r, c') → c ≤ c' ∧ c' < ts.length :=
  ⟨h.1, fun r c' hr => ⟨le_trans hcc (h.2 r c' hr).1, (h.2 r c' hr).2⟩⟩

theorem parseGo_inv : ∀ (fuel : Nat) (fr : Frame) (ts : List Token) (c : Nat),
    EofTerminated ts → c < ts.length →
    parseGo fuel fr ts c ≠ .crash ∧
      ∀ r c', parseGo fuel fr ts c = .ok (r, c') → c ≤ c' ∧ c' < ts.length := by
  intro fuel
  induction fuel with
  | zero =>
      intro fr ts c hE hc
      exact ⟨by simp [parseGo], by intro r c' h; simp [parseGo] at h⟩
  | succ fuel ih =>
      intro fr ts c hE hc
      have hlevel : ∀ (sub : Frame) (loop : Expression → Frame),
          (∀ (e : Expression) (c1 : Nat), c1 < ts.length →
            parseGo fuel (loop e) ts c1 ≠ .crash ∧
              ∀ r c', parseGo fuel (loop e) ts c1 = .ok (r, c') → c1 ≤ c' ∧ c' < ts.length) →
          ((match parseGo fuel sub ts c with
            | .ok (.ok e, c1) => parseGo fuel (loop e) ts c1
            | r => r) ≠ .crash ∧
            ∀ r c', (match parseGo fuel sub ts c with
              | .ok (.ok e, c1) => parseGo fuel (loop e) ts c1
              | r => r) = .ok (r, c') → c ≤ c' ∧ c' < ts.length) := by
        intro sub loop hloop
        have hsub := ih sub ts c hE hc
        split
        · rename_i e c1 hX
          have h1 := hsub.2 _ _ hX
          exact inv_mono (le_trans h1.1 (le_refl _)) (hloop e c1 h1.2)
        · rename_i x hne
          exact hsub
      cases fr with
      | expressionF => exact ih Frame.equalityF ts c hE hc
      | equalityF =>
          unfold parseGo
          exact hlevel Frame.comparisonF Frame.eqLoopF
            (fun e c1 h1 => ih (Frame.eqLoopF e) ts c1 hE h1)
      | comparisonF =>
          unfold parseGo
          exact hlevel Frame.termF Frame.cmpLoopF
            (fun e c1 h1 => ih (Frame.cmpLoopF e) ts c1 hE h1)
      | termF =>
          unfold parseGo
          exact hlevel Frame.factorF Frame.termLoopF
            (fun e c1 h1 => ih (Frame.termLoopF e) ts c1 hE h1)
      | factorF =>
          unfold parseGo
          exact hlevel Frame.unaryF Frame.facLoopF
            (fun e c1 h1 => ih (Frame.facLoopF e) ts c1 hE h1)
      | eqLoopF e =>
          unfold parseGo
          dsimp only
          split
          · rename_i t hpk
            split
            · rename_i hcond
              have hne : t.token_type ≠ TokenType.Eof := by
                intro hEof
                rw [hEof] at hcond
                simp at hcond
              obtain ⟨hadv, hlt2⟩ := advanceT_spec hE hpk hne
              rw [hadv]
              dsimp only
              have hsub := ih Frame.comparisonF ts (c + 1) hE hlt2
              split
              · rename_i r2 c2 hX
                have h1 := hsub.2 _ _ hX
                exact inv_mono (by omega) (ih (Frame.eqLoopF _) ts c2 hE h1.2)
              · rename_i x hne2
                exact inv_mono (by omega) hsub
            · exact ⟨by simp, by intro r c' hr; simp at hr; omega⟩
          · exact ⟨by simp, by intro r c' hr; simp at hr; omega⟩
      | cmpLoopF e =>
          unfold parseGo
          dsimp only
          split
          · rename_i t hpk
            split
            · rename_i hcond
              have hne : t.token_type ≠ TokenType.Eof := by
                intro hEof
                rw [hEof] at hcond
                simp at hcond
              obtain ⟨hadv, hlt2⟩ := advanceT_spec hE hpk hne
              rw [hadv]
              dsimp only
              have hsub := ih Frame.termF ts (c + 1) hE hlt2
              split
              · rename_i r2 c2 hX
                have h1 := hsub.2 _ _ hX
                exact inv_mono (by omega) (ih (Frame.cmpLoopF _) ts c2 hE h1.2)
              · rename_i x hne2
                exact inv_mono (by omega) hsub
            · exact ⟨by simp, by intro r c' hr; simp at hr; omega⟩
          · exact ⟨by simp, by intro r c' hr; simp at hr; omega⟩
      | termLoopF e =>
          unfold parseGo
          dsimp only
          split
          · rename_i t hpk
            split
            · rename_i hcond
              have hne : t.token_type ≠ TokenType.Eof := by
                intro hEof
                rw [hEof] at hcond
                simp at hcond
              obtain ⟨hadv, hlt2⟩ := advanceT_spec hE hpk hne
              rw [hadv]
              dsimp only
              have hsub := ih Frame.factorF ts (c + 1) hE hlt2
              split
              · rename_i r2 c2 hX
                have h1 := hsub.2 _ _ hX
                exact inv_mono (by omega) (ih (Frame.termLoopF _) ts c2 hE h1.2)
              · rename_i x hne2
                exact inv_mono (by omega) hsub
            · exact ⟨by simp, by intro r c' hr; simp at hr; omega⟩
          · exact ⟨by simp, by intro r c' hr; simp at hr; omega⟩
      | facLoopF e =>
          unfold parseGo
          dsimp only
          split
          · rename_i t hpk
            split
            · rename_i hcond
              have hne : t.token_type ≠ TokenType.Eof := by
                intro hEof
                rw [hEof] at hcond
                simp at hcond
              obtain ⟨hadv, hlt2⟩ := advanceT_spec hE hpk hne
              rw [hadv]
              dsimp only
              have hsub := ih Frame.unaryF ts (c + 1) hE hlt2
              split
              · rename_i r2 c2 hX
                have h1 := hsub.2 _ _ hX
                exact inv_mono (by omega) (ih (Frame.facLoopF _) ts c2 hE h1.2)
              · rename_i x hne2
                exact inv_mono (by omega) hsub
            · exact ⟨by simp, by intro r c' hr; simp at hr; omega⟩
          · exact ⟨by simp, by intro r c' hr; simp at hr; omega⟩
      | unaryF =>
          unfold parseGo
          dsimp only
          split
          · rename_i t hpk
            split
            · rename_i hcond
              have hne : t.token_type ≠ TokenType.Eof := by
                intro hEof
                rw [hEof] at hcond
                simp at hcond
              obtain ⟨hadv, hlt2⟩ := advanceT_spec hE hpk hne
              rw [hadv]
              dsimp only
              have hsub := ih Frame.unaryF ts (c + 1) hE hlt2
              split
              · rename_i r2 c2 hX
                have h1 := hsub.2 _ _ hX
                exact ⟨by simp, by
                  intro r c' hr
                  simp only [PRes.ok.injEq, Prod.mk.injEq] at hr
                  omega⟩
              · rename_i x hne2
                exact inv_mono (by omega) hsub
            · exact inv_mono (le_refl _) (ih Frame.primaryF ts c hE hc)
          · exact inv_mono (le_refl _) (ih Frame.primaryF ts c hE hc)
      | primaryF =>
          unfold parseGo
          dsimp only
          split
          · rename_i t hpk
            split
            · rename_i htt
              have hne : t.token_type ≠ TokenType.Eof := by rw [htt]; simp
              obtain ⟨hadv, hlt2⟩ := advanceT_spec hE hpk hne
              rw [hadv]
              exact ⟨by simp, by intro r c' hr; simp at hr; omega⟩
            · rename_i htt
              have hne : t.token_type ≠ TokenType.Eof := by rw [htt]; simp
              obtain ⟨hadv, hlt2⟩ := advanceT_spec hE hpk hne
              rw [hadv]
              exact ⟨by simp, by intro r c' hr; simp at hr; omega⟩
            · rename_i htt
              have hne : t.token_type ≠ TokenType.Eof := by rw [htt]; simp
              obtain ⟨hadv, hlt2⟩ := advanceT_spec hE hpk hne
              rw [hadv]
              exact ⟨by simp, by intro r c' hr; simp at hr; omega⟩
            · rename_i n htt
              have hne : t.token_type ≠ TokenType.Eof := by rw [htt]; simp
              obtain ⟨hadv, hlt2⟩ := advanceT_spec hE hpk hne
              rw [hadv]
              exact ⟨by simp, by intro r c' hr; simp at hr; omega⟩
            · rename_i l htt
              have hne : t.token_type ≠ TokenType.Eof := by rw [htt]; simp
              obtain ⟨hadv, hlt2⟩ := advanceT_spec hE hpk hne
              rw [hadv]
              exact ⟨by simp, by intro r c' hr; simp at hr; omega⟩
            · rename_i htt
              have hne : t.token_type ≠ TokenType.Eof := by rw [htt]; simp
              obtain ⟨hadv, hlt2⟩ := advanceT_spec hE hpk hne
              rw [hadv]
              dsimp only
              have hsub := ih Frame.expressionF ts (c + 1) hE hlt2
              split
              · rename_i e2 c2 hX
                have h1 := hsub.2 _ _ hX
                split
                · rename_i t2 hpk2
                  split
                  · rename_i hcond2
                    have hne2 : t2.token_type ≠ TokenType.Eof := by
                      intro hEof
                      rw [hEof] at hcond2
                      simp at hcond2
                    obtain ⟨hadv2, hlt3⟩ := advanceT_spec hE hpk2 hne2
                    rw [hadv2]
                    exact ⟨by simp, by intro r c' hr; simp at hr; omega⟩
                  · exact ⟨by simp, by intro r c' hr; simp at hr; omega⟩
                · exact ⟨by simp, by intro r c' hr; simp at hr; omega⟩
              · rename_i x hne2
                exact inv_mono (by omega) hsub
            · exact ⟨by simp, by intro r c' hr; simp at hr; omega⟩
          · exact ⟨by simp, by intro r c' hr; simp at hr; omega⟩

end Parse

/-- C9: for every Eof-terminated token sequence, throughout every run of
the parser engine (any fuel, any method frame, any in-bounds cursor) the
cursor never decreases and stays strictly within the sequence bound, and
the run never crashes — in particular `previous` is never invoked at
cursor 0 (the `usize` underflow panic, modelled as the crash outcome,
is unreachable) and every `peek`/`previous` read is in bounds; `parse`
itself never crashes; and once the current token is the Eof sentinel,
`advance` leaves the cursor unchanged. -/
theorem c9_parser_cursor (ts : List Token) (hE : Parse.EofTerminated ts) :
    (∀ (fuel : Nat) (fr : Parse.Frame) (c : Nat), c < ts.length →
       Parse.parseGo fuel fr ts c ≠ PRes.crash ∧
         ∀ r c', Parse.parseGo fuel fr ts c = PRes.ok (r, c') → c ≤ c' ∧ c' < ts.length) ∧
      Parse.parse ts ≠ PRes.crash ∧
      (∀ c, Parse.at_endT ts c = true →
        ∀ r c', Parse.advanceT ts c = some (r, c') → c' = c) := by
  refine ⟨fun fuel fr c hc => Parse.parseGo_inv fuel fr ts c hE hc, ?_,
    fun c h => Parse.advanceT_at_eof h⟩
  have hlen : 0 < ts.length := by
    obtain ⟨t, hl, _⟩ := hE
    cases ts
    · cases hl
    · simp
  exact (Parse.parseGo_inv _ _ ts 0 hE hlen).1

/-- C9 witness: the one-token sequence holding only the Eof sentinel is
Eof-terminated, and parsing it does not crash. -/
theorem c9_parser_cursor_witness :
    Parse.parse [⟨TokenType.Eof, [], 1⟩] ≠ PRes.crash :=
  (c9_parser_cursor [⟨TokenType.Eof, [], 1⟩] ⟨⟨TokenType.Eof, [], 1⟩, rfl, rfl⟩).2.1
